import Mathlib

/-!
# Verification of computorV1 (polynomial equation solver)

Shallow embedding of `src/computorV1.py`.  Python floats are modelled as
exact rationals (`ℚ`), Python dicts from power to coefficient as
association lists `List (Nat × ℚ)` whose update semantics
(`setKey`: replace in place, append when new) mirrors dict assignment;
dict key uniqueness appears as a `Nodup` hypothesis in the theorems.
Strings are handled as `List Char` and wrapped into `String` at the edges.

The regex `([+-]?)(\d*\.?\d+)?\*?X\^(\d+)` used with `re.findall` is
hand-compiled into the deterministic scanner `findTerms`; the determinism
is justified case by case: the sign alternative, the optional number and
the optional star admit at most one choice compatible with the mandatory
continuation (`X^digits`), because a shorter greedy number match always
leaves a digit or a dot in front of the continuation.
-/

namespace ComputorV1

/-- Coefficient map: Python dict from power to coefficient. -/
abbrev Coeffs := List (Nat × ℚ)

/-- `d.get(p)` on the association list. -/
def getCoef : Coeffs → Nat → Option ℚ
  | [], _ => none
  | (k, v) :: r, p => if k = p then some v else getCoef r p

/-- `d.get(p, dflt)`. -/
def getD (m : Coeffs) (p : Nat) (dflt : ℚ) : ℚ := (getCoef m p).getD dflt

/-- `d[p] = v`: replace the entry in place when the key exists, append otherwise. -/
def setKey : Coeffs → Nat → ℚ → Coeffs
  | [], p, v => [(p, v)]
  | (k, w) :: r, p, v => if k = p then (p, v) :: r else (k, w) :: setKey r p v

/-- Keys of the map. -/
def keys (m : Coeffs) : List Nat := m.map Prod.fst

/-! ## The term scanner (hand-compiled regex) -/

/-- Length of the maximal leading run of decimal digits. -/
def digitRun : List Char → Nat
  | [] => 0
  | c :: r => if c.isDigit then digitRun r + 1 else 0

/-- Match `X\^(\d+)` at the head; returns the power digits and chars consumed. -/
def matchXpow : List Char → Option (List Char × Nat)
  | 'X' :: '^' :: r =>
      let c := digitRun r
      if c = 0 then none else some (r.take c, c + 2)
  | _ => none

/-- Match `\*?X\^(\d+)` at the head. -/
def matchStarX (u : List Char) : Option (List Char × Nat) :=
  match u with
  | '*' :: r => (matchXpow r).map (fun pk => (pk.1, pk.2 + 1))
  | _ => matchXpow u

/-- Match `(\d*\.?\d+)?\*?X\^(\d+)` at the head; returns the (possibly empty)
number digits, the power digits, and chars consumed.  The greedy number
group is deterministic here because its continuation starts with `*` or `X`,
which can never follow a shortened digit run (a digit or a dot would). -/
def matchNumTail (t : List Char) : Option ((List Char × List Char) × Nat) :=
  let a := digitRun t
  if (t.drop a).head? = some '.' then
    let b := digitRun (t.drop (a + 1))
    if b = 0 then none
    else if (t.drop (a + 1 + b)).head? = some '.' then none
    else (matchStarX (t.drop (a + 1 + b))).map
      (fun pk => ((t.take (a + 1 + b), pk.1), a + 1 + b + pk.2))
  else if a = 0 then
    (matchStarX t).map (fun pk => (([], pk.1), pk.2))
  else
    (matchStarX (t.drop a)).map (fun pk => ((t.take a, pk.1), a + pk.2))

/-- Match the whole term pattern at the head.  The group result is
(negative-sign?, number digits, power digits); an absent sign and `'+'`
coincide because the code maps both to `+` before conversion.  A consumed
`[+-]` character that cannot be followed by a term aborts the match, as in
the regex (backtracking to the empty sign would put the sign character in
front of the mandatory `X`). -/
def matchTermAt : List Char → Option ((Bool × List Char × List Char) × Nat)
  | [] => none
  | c :: rest =>
    if c = '+' then
      (matchNumTail rest).map (fun gk => ((false, gk.1.1, gk.1.2), gk.2 + 1))
    else if c = '-' then
      (matchNumTail rest).map (fun gk => ((true, gk.1.1, gk.1.2), gk.2 + 1))
    else
      (matchNumTail (c :: rest)).map (fun gk => ((false, gk.1.1, gk.1.2), gk.2))

/-- Fuelled scanner loop; the fuel only serves structural recursion and is
irrelevant once at least `s.length` (`findTermsAux_eq` below). -/
def findTermsAux : Nat → List Char → List (Bool × List Char × List Char)
  | 0, _ => []
  | _, [] => []
  | fuel + 1, c :: rest =>
    match matchTermAt (c :: rest) with
    | some (g, k) => g :: findTermsAux fuel (rest.drop (k - 1))
    | none => findTermsAux fuel rest

/-- `re.findall(pattern, s)`: scan left to right, emitting non-overlapping
leftmost matches and skipping characters that start no match. -/
def findTerms (s : List Char) : List (Bool × List Char × List Char) :=
  findTermsAux s.length s

/-- Digits to natural number (`int(power_str)`). -/
def parseNat (l : List Char) : Nat := l.foldl (fun acc c => acc * 10 + (c.toNat - 48)) 0

/-- `float(...)` on a matched number `digits[.digits]` or `.digits`. -/
def parseDec (l : List Char) : ℚ :=
  let ip := l.takeWhile (fun c => c ≠ '.')
  match l.dropWhile (fun c => c ≠ '.') with
  | [] => (parseNat ip : ℚ)
  | _ :: fr => (parseNat ip : ℚ) + (parseNat fr : ℚ) / (10 : ℚ) ^ fr.length

/-- Signed value and power of a matched term: missing coefficient is 1,
sign `-` negates (`float(sign + coef_str)`). -/
def termValue (g : Bool × List Char × List Char) : Nat × ℚ :=
  (parseNat g.2.2, (if g.1 then -1 else 1) * (if g.2.1 = [] then 1 else parseDec g.2.1))

/-- `parse_side`: accumulate matched terms, summing like powers
(`coefs[power] = coefs.get(power, 0) + coef`). -/
def parse_side (side : List Char) : Coeffs :=
  (findTerms side).foldl
    (fun m g =>
      let pc := termValue g
      setKey m pc.1 (getD m pc.1 0 + pc.2)) []

/-- `str.split('=')`. -/
def splitEq : List Char → List (List Char)
  | [] => [[]]
  | c :: r =>
    if c = '=' then [] :: splitEq r
    else
      match splitEq r with
      | [] => [[c]]
      | p :: ps => (c :: p) :: ps

/-- `equation.replace(" ", "")`. -/
def stripSpaces (s : List Char) : List Char := s.filter (fun c => c ≠ ' ')

/-- `parse_polynomial`.  The tuple unpacking `left, right = equation.split('=')`
succeeds only for exactly two parts; any other arity raises an uncaught
`ValueError`, modelled as `none`. -/
def parse_polynomial (eq : String) : Option Coeffs :=
  match splitEq (stripSpaces eq.toList) with
  | [l, r] =>
      some ((parse_side r).foldl
        (fun acc pc => setKey acc pc.1 (getD acc pc.1 0 - pc.2)) (parse_side l))
  | _ => none

/-- Number of `'='` characters in the input. -/
def countEq (s : String) : Nat := s.toList.countP (fun c => c = '=')

/-- The parsed `(power, signed coefficient)` pairs of the matched terms of a side. -/
def termsOf (side : List Char) : List (Nat × ℚ) := (findTerms side).map termValue

/-- Sum of the parsed term coefficients carrying power `p`. -/
def sumPow (p : Nat) (E : List (Nat × ℚ)) : ℚ :=
  ((E.filter (fun e => decide (e.1 = p))).map Prod.snd).sum

/-! ## Degree -/

/-- Degree computation from `main`:
`max(power for power, coef in coefs.items() if coef != 0)` guarded by
`coefs and any(coef != 0 ...)`, else `0`.  `foldr max 0` of the non-empty
filtered power list equals its maximum since powers are naturals. -/
def degree (m : Coeffs) : Nat :=
  if m.any (fun e => decide (e.2 ≠ 0)) then
    ((m.filter (fun e => decide (e.2 ≠ 0))).map Prod.fst).foldr max 0
  else 0

/-! ## Number formatting -/

/-- `my_abs`. -/
def my_abs (q : ℚ) : ℚ := if q < 0 then -q else q

/-- Fuelled digit emitter; fuel above `n` is irrelevant (`natCharsAux_eq`). -/
def natCharsAux : Nat → Nat → List Char
  | 0, _ => []
  | fuel + 1, n =>
    if n < 10 then [Nat.digitChar n]
    else natCharsAux fuel (n / 10) ++ [Nat.digitChar (n % 10)]

/-- Digits of a natural number. -/
def natChars (n : Nat) : List Char := natCharsAux (n + 1) n

/-- `str` of an integer. -/
def intChars (n : ℤ) : List Char :=
  if n < 0 then '-' :: natChars n.natAbs else natChars n.toNat

/-- Least `k` with `den ∣ 10^k`, when one exists below the bound (it does
whenever the expansion terminates, since `2^a * 5^b = den` forces
`max a b ≤ den`). -/
def minTenPow (den : Nat) : Option Nat :=
  (List.range (den + 1)).find? (fun k => 10 ^ k % den = 0)

/-- Left-pad digits with zeros to width `k`. -/
def padZeros (k : Nat) (l : List Char) : List Char :=
  List.replicate (k - l.length) '0' ++ l

/-- Positional digits `<integer part>.<k fraction digits>` of `n / 10^k`. -/
def posDigits (n k : Nat) : List Char :=
  natChars (n / 10 ^ k) ++ '.' :: padZeros k (natChars (n % 10 ^ k))

/-- Scientific notation `d[.rest]e-EE` of `n / 10^k`.  Since `k` is chosen
minimal, `n` has no trailing zero, so the digits of `n` are the mantissa
digits and the decimal exponent is `(digit count of n) - 1 - k`; this is
only reached for values below `1/10^4`, where the exponent is negative and
CPython pads its absolute value to at least two digits. -/
def sciDigits (n k : Nat) : List Char :=
  match natChars n with
  | [] => []
  | d :: rest =>
      d :: (if rest = [] then [] else '.' :: rest) ++
        'e' :: '-' :: padZeros 2 (natChars (k + 1 - (natChars n).length))

/-- Decimal rendering of a non-negative rational: `str(float)`.  CPython
prints the shortest repr positionally when its decimal exponent lies in
`[-4, 15]` and in scientific notation otherwise; for the exact terminating
value `n / 10^k` the exponent is at least `-4` exactly when the value is
at least `1/10^4`.  The large-exponent scientific branch (exponent above
15) is unreachable here: `renderPos` is only applied to non-integral
values, and every non-integral double is below `2^53 < 10^16`.  A
non-terminating expansion (impossible for an actual double, whose
denominator is a power of two) is rendered as a 17-digit truncation,
which still contains a dot.  Used only through `format_coefficient`. -/
def renderPos (q : ℚ) : List Char :=
  match minTenPow q.den with
  | some k =>
      if k = 0 then natChars q.num.toNat
      else
        let n := (q * (10 : ℚ) ^ k).num.toNat
        if 1 / 10 ^ 4 ≤ q then posDigits n k else sciDigits n k
  | none =>
      natChars (q.num.toNat / q.den) ++
        '.' :: padZeros 17 (natChars (q.num.toNat % q.den * 10 ^ 17 / q.den))

/-- `format_coefficient`: `str(int(coef))` when the value is integral
(`coef == int(coef)` holds exactly when the denominator is 1), else
`str(coef)`. -/
def format_coefficient (c : ℚ) : String :=
  if c.den = 1 then String.mk (intChars c.num)
  else if c < 0 then String.mk ('-' :: renderPos (-c)) else String.mk (renderPos c)

/-- Round half to even, as `"{0:.6f}".format` does on the exact value. -/
def rhe (x : ℚ) : ℤ :=
  let f := Int.floor x
  let r := x - f
  if r < 1 / 2 then f
  else if 1 / 2 < r then f + 1
  else if Even f then f else f + 1

/-- Strip trailing copies of `c` (`str.rstrip`). -/
def rstripChar (c : Char) (l : List Char) : List Char :=
  (l.reverse.dropWhile (fun d => d = c)).reverse

/-- `format_number`: integral values as `str(int(num))`; otherwise
`"{0:.6f}".format(num).rstrip('0').rstrip('.')` — six rounded fractional
digits, trailing zeros then a bare trailing dot removed.  The sign is
that of the value, so a negative value rounding to zero keeps its minus. -/
def format_number (num : ℚ) : String :=
  if num.den = 1 then String.mk (intChars num.num)
  else
    let m := (rhe (num * 10 ^ 6)).natAbs
    let digits := natChars (m / 10 ^ 6) ++ '.' :: padZeros 6 (natChars (m % 10 ^ 6))
    String.mk ((if num < 0 then ['-'] else []) ++ rstripChar '.' (rstripChar '0' digits))

/-! ## Reduced form -/

/-- Insert into a sorted list (ascending). -/
def insertSorted (p : Nat) : List Nat → List Nat
  | [] => [p]
  | q :: r => if p ≤ q then p :: q :: r else q :: insertSorted p r

/-- `sorted(keys)`. -/
def sortKeys (l : List Nat) : List Nat := l.foldr insertSorted []

/-- `" ".join(terms)`. -/
def joinSpace : List (List Char) → List Char
  | [] => []
  | [t] => t
  | t :: u :: r => t ++ ' ' :: joinSpace (u :: r)

/-- `.replace("+ -", "- ")`: leftmost non-overlapping replacement,
resuming after the replaced segment. -/
def replacePM : List Char → List Char
  | a :: b :: c :: r =>
      if a = '+' ∧ b = ' ' ∧ c = '-' then '-' :: ' ' :: replacePM r
      else a :: replacePM (b :: c :: r)
  | s => s

/-- Python whitespace test for `.strip()` (only `' '` ever occurs here). -/
def isWS (c : Char) : Bool := c = ' ' || c = '\t' || c = '\n' || c = '\r'

/-- `.strip()`. -/
def stripBoth (l : List Char) : List Char :=
  ((l.dropWhile isWS).reverse.dropWhile isWS).reverse

/-- The f-string `f"{sign} {coef_str} * X^{power}"`. -/
def termChars (p : Nat) (c : ℚ) : List Char :=
  (if 0 < c then '+' else '-') :: ' ' :: (format_coefficient (my_abs c)).toList ++
    ' ' :: '*' :: ' ' :: 'X' :: '^' :: natChars p

/-- `reduced_form`. -/
def reduced_form (m : Coeffs) : String :=
  if m.all (fun e => decide (e.2 = 0)) then "0 = 0"
  else
    let terms := (sortKeys (keys m)).filterMap (fun p =>
      let c := getD m p 0
      if c = 0 then none else some (termChars p c))
    String.mk
      (stripBoth ((replacePM (joinSpace terms)).dropWhile (fun c => c = '+' || c = ' ')) ++
        (' ' :: '=' :: ' ' :: '0' :: []))

/-! ## Reference renderer, following the specification text.
The definitions below are written from the spec's words (ascending powers,
zero terms omitted, magnitude-1 coefficients printed, first term with a
bare or `- `-prefixed magnitude, later terms joined by ` + `/` - `) and are
compared against the string pipeline of `reduced_form` in the theorems. -/

/-- Rendering of one term body, `<magnitude> * X^<power>`. -/
def specTermChars (p : Nat) (c : ℚ) : List Char :=
  (format_coefficient (my_abs c)).toList ++ ' ' :: '*' :: ' ' :: 'X' :: '^' :: natChars p

/-- Rendering of the terms after the first, each preceded by ` + ` or ` - `. -/
def specRenderRest : List (Nat × ℚ) → List Char
  | [] => []
  | (p, c) :: r =>
      ' ' :: (if 0 < c then '+' else '-') :: ' ' :: specTermChars p c ++ specRenderRest r

/-- Rendering of a non-empty term list: the first term has no leading `+`,
a negative first term gets a `- ` prefix. -/
def specRender : List (Nat × ℚ) → List Char
  | [] => []
  | (p, c) :: r => (if 0 < c then [] else ['-', ' ']) ++ specTermChars p c ++ specRenderRest r

/-- The non-zero entries of the map, listed by ascending power. -/
def nonzeroSortedEntries (m : Coeffs) : List (Nat × ℚ) :=
  (sortKeys (keys m)).filterMap (fun p =>
    let c := getD m p 0
    if c = 0 then none else some (p, c))

/-- The canonical reduced form exactly as the specification describes it. -/
def specReducedForm (m : Coeffs) : String :=
  if m.all (fun e => decide (e.2 = 0)) then "0 = 0"
  else String.mk (specRender (nonzeroSortedEntries m) ++ (' ' :: '=' :: ' ' :: '0' :: []))

/-! ## Space-stripped rendering.
`parse_polynomial` first deletes every space, so re-parsing the rendered
reduced form scans the space-free image of the rendering; the definitions
below describe that image term by term. -/

/-- The rendered coefficient magnitude, as a char list. -/
def magChars (c : ℚ) : List Char := (format_coefficient (my_abs c)).toList

/-- One space-free term body `<magnitude>*X^<power>`. -/
def flatTermChars (p : Nat) (c : ℚ) : List Char :=
  magChars c ++ '*' :: 'X' :: '^' :: natChars p

/-- Space-free rendering of the terms after the first, each preceded by its
explicit sign. -/
def flatRest : List (Nat × ℚ) → List Char
  | [] => []
  | (p, c) :: r => (if 0 < c then '+' else '-') :: flatTermChars p c ++ flatRest r

/-- Space-free rendering of a term list: the first term carries a `-` only
when negative, the later ones always carry a sign. -/
def flatRender : List (Nat × ℚ) → List Char
  | [] => []
  | (p, c) :: r => (if 0 < c then [] else ['-']) ++ flatTermChars p c ++ flatRest r

/-! ## Solver -/

/-- Outcome of the solver; each constructor corresponds to one printed
message of the code.  `twoRealRoots`/`complexRoots` carry the exact
`(a, b, discriminant)` the code feeds into the square root; the real
root values are recovered by `quadRoot1`/`quadRoot2` below. -/
inductive Solution where
  | tooHigh : Solution
  | infiniteSolutions : Solution
  | noSolution : Solution
  | oneRoot (x : ℚ) : Solution
  | doubleRoot (x : ℚ) : Solution
  | twoRealRoots (a b disc : ℚ) : Solution
  | complexRoots (a b disc : ℚ) : Solution
deriving DecidableEq, Repr

/-- `solve_linear`. -/
def solve_linear (m : Coeffs) : Solution :=
  let a := getD m 1 0
  let b := getD m 0 0
  if a = 0 then (if b = 0 then .infiniteSolutions else .noSolution)
  else .oneRoot (-b / a)

/-- `solve_quadratic`. -/
def solve_quadratic (m : Coeffs) : Solution :=
  let a := getD m 2 0
  let b := getD m 1 0
  let c := getD m 0 0
  if a = 0 then solve_linear m
  else
    let disc := b ^ 2 - 4 * a * c
    if 0 < disc then .twoRealRoots a b disc
    else if disc = 0 then .doubleRoot (-b / (2 * a))
    else .complexRoots a b disc

/-- `solve_polynomial` (dispatch on the degree). -/
def solve_polynomial (m : Coeffs) (deg : Nat) : Solution :=
  if 2 < deg then .tooHigh
  else if deg = 2 then solve_quadratic m
  else if deg = 1 then solve_linear m
  else if getD m 0 0 = 0 then .infiniteSolutions
  else .noSolution

/-- Value of `solution1 = (-b + discriminant**0.5) / (2*a)` (printed first). -/
noncomputable def quadRoot1 (a b disc : ℚ) : ℝ :=
  ((-b : ℝ) + Real.sqrt (disc : ℝ)) / (2 * (a : ℝ))

/-- Value of `solution2 = (-b - discriminant**0.5) / (2*a)` (printed second). -/
noncomputable def quadRoot2 (a b disc : ℚ) : ℝ :=
  ((-b : ℝ) - Real.sqrt (disc : ℝ)) / (2 * (a : ℝ))

/-- `real_part = -b / (2*a)` of the complex branch. -/
def realPart (a b : ℚ) : ℚ := -b / (2 * a)

/-- `imaginary_part = ((-discriminant) ** 0.5) / (2*a)` of the complex branch. -/
noncomputable def imagPart (a disc : ℚ) : ℝ :=
  Real.sqrt ((-disc : ℚ) : ℝ) / (2 * (a : ℝ))

/-- First reported complex root, `real + imaginary·i`. -/
noncomputable def complexRoot1 (a b disc : ℚ) : ℂ :=
  ((realPart a b : ℚ) : ℂ) + (imagPart a disc : ℝ) * Complex.I

/-- Second reported complex root, `real - imaginary·i`. -/
noncomputable def complexRoot2 (a b disc : ℚ) : ℂ :=
  ((realPart a b : ℚ) : ℂ) - (imagPart a disc : ℝ) * Complex.I

/-! ## Fuel irrelevance -/

theorem natCharsAux_eq (n : Nat) : ∀ fuel, n < fuel → natCharsAux fuel n = natChars n := by
  induction n using Nat.strong_induction_on with
  | _ n ih =>
    intro fuel hf
    obtain ⟨f, rfl⟩ : ∃ f, fuel = f + 1 := ⟨fuel - 1, by omega⟩
    by_cases h10 : n < 10
    · simp [natCharsAux, natChars, h10]
    · have hdiv : n / 10 < n := Nat.div_lt_self (by omega) (by norm_num)
      have lhs : natCharsAux (f + 1) n = natChars (n / 10) ++ [Nat.digitChar (n % 10)] := by
        simp only [natCharsAux, if_neg h10]
        rw [ih _ hdiv _ (by omega)]
      have rhs : natChars n = natChars (n / 10) ++ [Nat.digitChar (n % 10)] := by
        show natCharsAux (n + 1) n = _
        simp only [natCharsAux, if_neg h10]
        rw [ih _ hdiv _ (by omega)]
      rw [lhs, rhs]

/-- Unfolding equation for `natChars` below 10. -/
theorem natChars_small {n : Nat} (h : n < 10) : natChars n = [Nat.digitChar n] := by
  simp [natChars, natCharsAux, h]

/-- Unfolding equation for `natChars` at 10 and above. -/
theorem natChars_large {n : Nat} (h : ¬ n < 10) :
    natChars n = natChars (n / 10) ++ [Nat.digitChar (n % 10)] := by
  have hdiv : n / 10 < n := Nat.div_lt_self (by omega) (by norm_num)
  show natCharsAux (n + 1) n = _
  simp only [natCharsAux, if_neg h]
  rw [natCharsAux_eq _ _ (by omega)]

theorem findTermsAux_eq : ∀ (n : Nat) (s : List Char), s.length ≤ n →
    ∀ fuel, s.length ≤ fuel → findTermsAux fuel s = findTerms s := by
  intro n
  induction n with
  | zero =>
    intro s hs fuel _
    have : s = [] := List.eq_nil_of_length_eq_zero (by omega)
    subst this
    cases fuel <;> rfl
  | succ n ih =>
    intro s hs fuel hf
    cases s with
    | nil => cases fuel <;> rfl
    | cons c rest =>
      obtain ⟨f, rfl⟩ : ∃ f, fuel = f + 1 := ⟨fuel - 1, by simp at hf; omega⟩
      show findTermsAux (f + 1) (c :: rest) = findTermsAux (rest.length + 1) (c :: rest)
      cases hm : matchTermAt (c :: rest) with
      | none =>
        simp only [List.length_cons] at hs hf
        simp only [findTermsAux, hm]
        rw [ih rest (by omega) f (by omega), ih rest (by omega) rest.length (le_refl _)]
      | some gk =>
        obtain ⟨g, k⟩ := gk
        simp only [List.length_cons] at hs hf
        simp only [findTermsAux, hm]
        have hd : (rest.drop (k - 1)).length ≤ rest.length := by
          simp [List.length_drop]
        rw [ih _ (by omega) f (by omega), ih _ (by omega) _ hd]

/-- One-step unfolding of the scanner on a non-empty input. -/
theorem findTerms_cons (c : Char) (rest : List Char) :
    findTerms (c :: rest) =
      match matchTermAt (c :: rest) with
      | some (g, k) => g :: findTerms (rest.drop (k - 1))
      | none => findTerms rest := by
  show findTermsAux (rest.length + 1) (c :: rest) = _
  cases hm : matchTermAt (c :: rest) with
  | none =>
    simp only [findTermsAux, hm]
    exact findTermsAux_eq rest.length rest (le_refl _) _ (le_refl _)
  | some gk =>
    obtain ⟨g, k⟩ := gk
    simp only [findTermsAux, hm]
    have hd : (rest.drop (k - 1)).length ≤ rest.length := by simp [List.length_drop]
    rw [findTermsAux_eq _ _ (le_refl _) _ hd]

/-! ## Association-map lemmas -/

theorem getCoef_setKey_self (m : Coeffs) (p : Nat) (v : ℚ) :
    getCoef (setKey m p v) p = some v := by
  induction m with
  | nil => simp [setKey, getCoef]
  | cons e r ih =>
    obtain ⟨k, w⟩ := e
    by_cases h : k = p
    · simp [setKey, h, getCoef]
    · simp [setKey, h, getCoef, ih]

theorem getCoef_setKey_ne (m : Coeffs) (p q : Nat) (v : ℚ) (h : q ≠ p) :
    getCoef (setKey m p v) q = getCoef m q := by
  have hpq : ¬ (p = q) := fun hh => h hh.symm
  induction m with
  | nil => simp [setKey, getCoef, hpq]
  | cons e r ih =>
    obtain ⟨k, w⟩ := e
    by_cases hk : k = p
    · subst hk
      simp [setKey, getCoef, hpq]
    · simp only [setKey, if_neg hk, getCoef]
      by_cases hq : k = q <;> simp [hq, ih]

theorem keys_setKey (m : Coeffs) (p : Nat) (v : ℚ) :
    keys (setKey m p v) = if p ∈ keys m then keys m else keys m ++ [p] := by
  induction m with
  | nil => simp [setKey, keys]
  | cons e r ih =>
    obtain ⟨k, w⟩ := e
    by_cases h : k = p
    · subst h
      simp [setKey, keys]
    · have hpk : ¬ (p = k) := fun hh => h hh.symm
      simp only [setKey, if_neg h, keys, List.map_cons] at *
      by_cases hp : p ∈ List.map Prod.fst r
      · simp [hp, hpk, ih]
      · simp [hp, hpk, ih]

theorem mem_keys_setKey (m : Coeffs) (p q : Nat) (v : ℚ) :
    q ∈ keys (setKey m p v) ↔ q ∈ keys m ∨ q = p := by
  rw [keys_setKey]
  by_cases h : p ∈ keys m
  · simp only [if_pos h]
    constructor
    · exact Or.inl
    · rintro (hq | rfl)
      · exact hq
      · exact h
  · simp [if_neg h, or_comm]

theorem nodup_keys_setKey (m : Coeffs) (p : Nat) (v : ℚ) (h : (keys m).Nodup) :
    (keys (setKey m p v)).Nodup := by
  rw [keys_setKey]
  by_cases hp : p ∈ keys m
  · simpa [hp] using h
  · simp only [if_neg hp]
    simpa [List.nodup_append, hp] using h

theorem getCoef_eq_none (m : Coeffs) (p : Nat) (h : p ∉ keys m) : getCoef m p = none := by
  induction m with
  | nil => rfl
  | cons e r ih =>
    obtain ⟨k, w⟩ := e
    simp only [keys, List.map_cons, List.mem_cons] at h
    push_neg at h
    obtain ⟨hne, hnr⟩ := h
    have hr : p ∉ keys r := by simpa [keys] using hnr
    simp only [getCoef, ih hr]
    rw [if_neg (fun hh => hne hh.symm)]

theorem getD_setKey_self (m : Coeffs) (p : Nat) (v d : ℚ) : getD (setKey m p v) p d = v := by
  simp [getD, getCoef_setKey_self]

theorem getD_setKey_ne (m : Coeffs) (p q : Nat) (v d : ℚ) (h : q ≠ p) :
    getD (setKey m p v) q d = getD m q d := by
  simp [getD, getCoef_setKey_ne _ _ _ _ h]

/-! ## Accumulation folds (used by both sides and by the subtraction loop) -/

theorem fold_setKey_getD (op : ℚ → ℚ → ℚ) :
    ∀ (E : List (Nat × ℚ)) (m₀ : Coeffs) (p : Nat),
      getD (E.foldl (fun m e => setKey m e.1 (op (getD m e.1 0) e.2)) m₀) p 0 =
        ((E.filter (fun e => decide (e.1 = p))).map Prod.snd).foldl op (getD m₀ p 0) := by
  intro E
  induction E with
  | nil => intro m₀ p; rfl
  | cons e E' ih =>
    intro m₀ p
    obtain ⟨q, c⟩ := e
    by_cases hq : q = p
    · subst hq
      simp only [List.foldl_cons, List.filter_cons, decide_True, if_true, List.map_cons]
      rw [ih, getD_setKey_self]
    · simp only [List.foldl_cons, List.filter_cons]
      rw [ih, getD_setKey_ne _ _ _ _ _ (fun hh => hq hh.symm)]
      simp [hq]

theorem fold_setKey_keys (v : Coeffs → Nat × ℚ → ℚ) :
    ∀ (E : List (Nat × ℚ)) (m₀ : Coeffs) (q : Nat),
      q ∈ keys (E.foldl (fun m e => setKey m e.1 (v m e)) m₀) ↔
        q ∈ keys m₀ ∨ q ∈ E.map Prod.fst := by
  intro E
  induction E with
  | nil => intro m₀ q; simp
  | cons e E' ih =>
    intro m₀ q
    simp only [List.foldl_cons, List.map_cons, List.mem_cons]
    rw [ih, mem_keys_setKey]
    tauto

theorem fold_setKey_nodup (v : Coeffs → Nat × ℚ → ℚ) :
    ∀ (E : List (Nat × ℚ)) (m₀ : Coeffs), (keys m₀).Nodup →
      (keys (E.foldl (fun m e => setKey m e.1 (v m e)) m₀)).Nodup := by
  intro E
  induction E with
  | nil => intro m₀ h; exact h
  | cons e E' ih =>
    intro m₀ h
    exact ih _ (nodup_keys_setKey _ _ _ h)

theorem filter_key_of_nodup :
    ∀ (m : Coeffs), (keys m).Nodup → ∀ p,
      (m.filter (fun e => decide (e.1 = p))).map Prod.snd = (getCoef m p).toList := by
  intro m
  induction m with
  | nil => intro _ p; rfl
  | cons e r ih =>
    intro hnd p
    obtain ⟨k, w⟩ := e
    simp only [keys, List.map_cons, List.nodup_cons] at hnd
    obtain ⟨hk, hr⟩ := hnd
    by_cases hkp : k = p
    · subst hkp
      have hfil : r.filter (fun e => decide (e.1 = k)) = [] := by
        rw [List.filter_eq_nil_iff]
        intro e he hke
        exact hk (List.mem_map.mpr ⟨e, he, of_decide_eq_true hke⟩)
      simp [List.filter_cons, hfil, getCoef]
    · have hd : (decide (((k, w) : Nat × ℚ).1 = p)) = false := by
        simpa using hkp
      simp only [List.filter_cons, hd, Bool.false_eq_true, if_false, getCoef, if_neg hkp]
      exact ih hr p

theorem foldl_add_eq (l : List ℚ) : ∀ x : ℚ, l.foldl (fun a b => a + b) x = x + l.sum := by
  induction l with
  | nil => intro x; simp
  | cons a t ih => intro x; simp only [List.foldl_cons, List.sum_cons]; rw [ih]; ring

theorem foldl_sub_eq (l : List ℚ) : ∀ x : ℚ, l.foldl (fun a b => a - b) x = x - l.sum := by
  induction l with
  | nil => intro x; simp
  | cons a t ih => intro x; simp only [List.foldl_cons, List.sum_cons]; rw [ih]; ring

/-! ## parse_side characterization -/

theorem parse_side_eq (side : List Char) :
    parse_side side =
      (termsOf side).foldl (fun m e => setKey m e.1 (getD m e.1 0 + e.2)) [] := by
  rw [termsOf, List.foldl_map]
  rfl

theorem parse_side_getD (side : List Char) (p : Nat) :
    getD (parse_side side) p 0 = sumPow p (termsOf side) := by
  rw [parse_side_eq]
  have h := fold_setKey_getD (fun a b => a + b) (termsOf side) [] p
  simpa [sumPow, foldl_add_eq, getD, getCoef] using h

theorem parse_side_keys (side : List Char) (p : Nat) :
    p ∈ keys (parse_side side) ↔ p ∈ (termsOf side).map Prod.fst := by
  rw [parse_side_eq]
  have h := fold_setKey_keys (fun m e => getD m e.1 0 + e.2) (termsOf side) [] p
  simpa [keys] using h

theorem parse_side_nodup (side : List Char) : (keys (parse_side side)).Nodup := by
  rw [parse_side_eq]
  exact fold_setKey_nodup _ _ [] (by simp [keys])

/-! ## splitEq facts -/

theorem splitEq_ne_nil : ∀ t : List Char, splitEq t ≠ [] := by
  intro t
  induction t with
  | nil => simp [splitEq]
  | cons c r ih =>
    by_cases hc : c = '='
    · simp [splitEq, hc]
    · simp only [splitEq, if_neg hc]
      cases hsp : splitEq r with
      | nil => exact absurd hsp ih
      | cons p ps => simp

theorem splitEq_length : ∀ t : List Char,
    (splitEq t).length = t.countP (fun c => c = '=') + 1 := by
  intro t
  induction t with
  | nil => simp [splitEq]
  | cons c r ih =>
    by_cases hc : c = '='
    · simp [splitEq, hc, List.countP_cons, ih]
    · simp only [splitEq, if_neg hc]
      cases hsp : splitEq r with
      | nil => exact absurd hsp (splitEq_ne_nil r)
      | cons p ps =>
        rw [hsp] at ih
        simp only [List.length_cons, List.countP_cons] at *
        simp [hc]
        omega

theorem countP_stripSpaces (t : List Char) :
    (stripSpaces t).countP (fun c => c = '=') = t.countP (fun c => c = '=') := by
  induction t with
  | nil => rfl
  | cons c r ih =>
    by_cases hsp : c = ' '
    · have h1 : stripSpaces (c :: r) = stripSpaces r := by
        simp [stripSpaces, List.filter_cons, hsp]
      have hne : ¬ (c = '=') := by rw [hsp]; decide
      rw [h1, ih, List.countP_cons]
      simp [hne]
    · have h1 : stripSpaces (c :: r) = c :: stripSpaces r := by
        simp [stripSpaces, List.filter_cons, hsp]
      rw [h1, List.countP_cons, List.countP_cons, ih]

/-! ## C1: parser correctness -/

/-- C1: for an input with exactly one `'='`, parsing succeeds and the
resulting map has pairwise distinct powers, carries an entry exactly for
the powers occurring among the matched terms of the two sides, and its
value at every power is the sum of the left-side parsed coefficients at
that power minus the sum of the right-side parsed coefficients at that
power (absent powers read as value 0 on both sides). -/
theorem C1_parse_polynomial_correct (s : String) (h : countEq s = 1) :
    ∃ l r m, splitEq (stripSpaces s.toList) = [l, r] ∧ parse_polynomial s = some m ∧
      (keys m).Nodup ∧
      (∀ p, p ∈ keys m ↔ p ∈ (termsOf l).map Prod.fst ∨ p ∈ (termsOf r).map Prod.fst) ∧
      ∀ p, getD m p 0 = sumPow p (termsOf l) - sumPow p (termsOf r) := by
  have hlen : (splitEq (stripSpaces s.toList)).length = 2 := by
    rw [splitEq_length, countP_stripSpaces]
    have : s.toList.countP (fun c => c = '=') = 1 := h
    omega
  obtain ⟨l, r, hparts⟩ : ∃ l r, splitEq (stripSpaces s.toList) = [l, r] := by
    cases hp : splitEq (stripSpaces s.toList) with
    | nil => rw [hp] at hlen; simp at hlen
    | cons a t =>
      cases t with
      | nil => rw [hp] at hlen; simp at hlen
      | cons b t2 =>
        cases t2 with
        | nil => exact ⟨a, b, rfl⟩
        | cons c t3 => rw [hp] at hlen; simp at hlen
  have hparse : parse_polynomial s =
      some ((parse_side r).foldl
        (fun acc pc => setKey acc pc.1 (getD acc pc.1 0 - pc.2)) (parse_side l)) := by
    unfold parse_polynomial
    rw [hparts]
  refine ⟨l, r, _, hparts, hparse, ?_, ?_, ?_⟩
  · exact fold_setKey_nodup _ _ _ (parse_side_nodup l)
  · intro p
    have h1 := fold_setKey_keys (fun m e => getD m e.1 0 - e.2) (parse_side r) (parse_side l) p
    rw [h1, parse_side_keys]
    have : p ∈ (parse_side r).map Prod.fst ↔ p ∈ keys (parse_side r) := Iff.rfl
    rw [this, parse_side_keys]
  · intro p
    have h1 := fold_setKey_getD (fun a b => a - b) (parse_side r) (parse_side l) p
    have h2 := filter_key_of_nodup (parse_side r) (parse_side_nodup r) p
    rw [h1, h2, foldl_sub_eq, parse_side_getD]
    have : (getCoef (parse_side r) p).toList.sum = sumPow p (termsOf r) := by
      cases hc : getCoef (parse_side r) p with
      | none =>
        have : getD (parse_side r) p 0 = 0 := by simp [getD, hc]
        rw [parse_side_getD] at this
        simp [this]
      | some v =>
        have : getD (parse_side r) p 0 = v := by simp [getD, hc]
        rw [parse_side_getD] at this
        simp [this]
    rw [this]

theorem C1_parse_polynomial_correct_witness :
    countEq "X^1 - X^0 = 0" = 1 ∧
    ∃ l r m,
      splitEq (stripSpaces "X^1 - X^0 = 0".toList) = [l, r] ∧
      parse_polynomial "X^1 - X^0 = 0" = some m ∧
      (keys m).Nodup ∧
      (∀ p, p ∈ keys m ↔ p ∈ (termsOf l).map Prod.fst ∨ p ∈ (termsOf r).map Prod.fst) ∧
      ∀ p, getD m p 0 = sumPow p (termsOf l) - sumPow p (termsOf r) :=
  ⟨by decide, C1_parse_polynomial_correct "X^1 - X^0 = 0" (by decide)⟩

/-! ## Folding max -/

theorem le_foldr_max (l : List Nat) : ∀ x ∈ l, x ≤ l.foldr max 0 := by
  induction l with
  | nil => intro x hx; cases hx
  | cons y r ih =>
    intro x hx
    rcases List.mem_cons.mp hx with rfl | hx
    · exact le_max_left _ _
    · exact le_trans (ih x hx) (le_max_right _ _)

theorem foldr_max_mem (l : List Nat) (h : l ≠ []) : l.foldr max 0 ∈ l := by
  induction l with
  | nil => exact absurd rfl h
  | cons y r ih =>
    cases r with
    | nil => simp
    | cons z t =>
      rcases le_total ((z :: t).foldr max 0) y with hle | hle
      · simp only [List.foldr_cons] at *
        rw [max_eq_left hle]
        exact List.mem_cons_self _ _
      · simp only [List.foldr_cons] at *
        rw [max_eq_right hle]
        exact List.mem_cons_of_mem _ (ih (by simp))

/-! ## C2: degree classification -/

/-- C2: for every coefficient map, `degree` is 0 when the map is empty or
all-zero, bounds every power that carries a non-zero coefficient from
above, and is itself a power carrying a non-zero coefficient whenever one
exists. -/
theorem C2_degree_correct (m : Coeffs) :
    ((∀ e ∈ m, e.2 = 0) → degree m = 0) ∧
    (∀ p c, (p, c) ∈ m → c ≠ 0 → p ≤ degree m) ∧
    ((∃ e ∈ m, e.2 ≠ 0) → ∃ c, (degree m, c) ∈ m ∧ c ≠ 0) := by
  by_cases h : m.any (fun e => decide (e.2 ≠ 0)) = true
  · have hdeg : degree m = ((m.filter (fun e => decide (e.2 ≠ 0))).map Prod.fst).foldr max 0 := by
      unfold degree
      rw [if_pos h]
    obtain ⟨e₀, he₀, hne₀⟩ : ∃ e ∈ m, e.2 ≠ 0 := by
      obtain ⟨e, he, hd⟩ := List.any_eq_true.mp h
      exact ⟨e, he, of_decide_eq_true hd⟩
    refine ⟨?_, ?_, ?_⟩
    · intro hall
      exact absurd (hall e₀ he₀) hne₀
    · intro p c hmem hc
      rw [hdeg]
      refine le_foldr_max _ p (List.mem_map.mpr ⟨(p, c), ?_, rfl⟩)
      exact List.mem_filter.mpr ⟨hmem, decide_eq_true hc⟩
    · intro _
      have hne : (m.filter (fun e => decide (e.2 ≠ 0))).map Prod.fst ≠ [] := by
        intro hnil
        have hfe : e₀ ∈ m.filter (fun e => decide (e.2 ≠ 0)) :=
          List.mem_filter.mpr ⟨he₀, decide_eq_true hne₀⟩
        rw [List.map_eq_nil_iff.mp hnil] at hfe
        cases hfe
      have hmem := foldr_max_mem _ hne
      rw [← hdeg] at hmem
      obtain ⟨⟨p, c⟩, hpc, hfst⟩ := List.mem_map.mp hmem
      obtain ⟨hpm, hcne⟩ := List.mem_filter.mp hpc
      simp only at hfst
      subst hfst
      exact ⟨c, hpm, of_decide_eq_true hcne⟩
  · have hall : ∀ e ∈ m, e.2 = 0 := by
      intro e he
      by_contra hne
      exact h (List.any_eq_true.mpr ⟨e, he, decide_eq_true hne⟩)
    have hdeg0 : degree m = 0 := by
      unfold degree
      rw [if_neg h]
    refine ⟨fun _ => hdeg0, ?_, ?_⟩
    · intro p c hmem hc
      exact absurd (hall (p, c) hmem) hc
    · rintro ⟨e, he, hne⟩
      exact absurd (hall e he) hne

theorem C2_degree_correct_witness : 2 ≤ degree [(2, (1 : ℚ)), (0, 3)] :=
  (C2_degree_correct [(2, (1 : ℚ)), (0, 3)]).2.1 2 1 (List.mem_cons_self _ _) one_ne_zero

/-! ## C3: malformed equation handling -/

/-- C3 (code bug evidence): with zero or two `'='` characters the split
does not produce exactly two parts, and `parse_polynomial` aborts with the
`ValueError` of the tuple unpacking (modelled as `none`) instead of any
descriptive rejection: the code has no `MalformedEquationError` and no
handler around `equation.split('=')`. -/
theorem C3_crash_on_malformed :
    countEq "X^2+1" = 0 ∧ parse_polynomial "X^2+1" = none ∧
    countEq "1=2=3" = 2 ∧ parse_polynomial "1=2=3" = none := by
  refine ⟨by decide, by decide, by decide, by decide⟩

/-! ## C7: quadratic degradation and the linear case -/

/-- C7: a structurally quadratic map with zero leading coefficient is
handed to the linear solver, and the linear solver reports infinitely many
solutions for `0 = 0`, inconsistency for `b ≠ 0`, and otherwise the single
root `-b / a`, which indeed solves `a·x + b = 0`. -/
theorem C7_quadratic_degrades_to_linear (m : Coeffs) :
    (getD m 2 0 = 0 → solve_quadratic m = solve_linear m) ∧
    (getD m 1 0 = 0 → getD m 0 0 = 0 → solve_linear m = Solution.infiniteSolutions) ∧
    (getD m 1 0 = 0 → getD m 0 0 ≠ 0 → solve_linear m = Solution.noSolution) ∧
    (getD m 1 0 ≠ 0 →
      solve_linear m = Solution.oneRoot (-getD m 0 0 / getD m 1 0) ∧
      getD m 1 0 * (-getD m 0 0 / getD m 1 0) + getD m 0 0 = 0) := by
  refine ⟨?_, ?_, ?_, ?_⟩
  · intro h
    simp [solve_quadratic, h]
  · intro h1 h0
    simp [solve_linear, h1, h0]
  · intro h1 h0
    simp [solve_linear, h1, h0]
  · intro h1
    refine ⟨by simp [solve_linear, h1], ?_⟩
    field_simp
    ring

theorem C7_quadratic_degrades_to_linear_witness :
    solve_quadratic [(2, (0 : ℚ)), (1, 2), (0, -2)] = Solution.oneRoot 1 := by
  have h := C7_quadratic_degrades_to_linear [(2, (0 : ℚ)), (1, 2), (0, -2)]
  rw [h.1 (by norm_num [getD, getCoef]), (h.2.2.2 (by norm_num [getD, getCoef])).1]
  norm_num [getD, getCoef]

/-! ## C9: unmatched input is ignored -/

/-- C9: the per-side map is built solely from the matched terms, so a side
in which nothing matches — stray symbols, or a bare constant written
without `X^power` — yields the empty map and raises no error, and stray
characters around a matched term leave the map unchanged. -/
theorem C9_unmatched_ignored :
    (∀ s : List Char, findTerms s = [] → parse_side s = []) ∧
    findTerms "5".toList = [] ∧ parse_side "5".toList = [] ∧
    parse_side "5+3".toList = [] ∧
    findTerms "$#%!".toList = [] ∧
    parse_side "&X^2#".toList = parse_side "X^2".toList ∧
    parse_side "&X^2#".toList = [(2, 1)] := by
  have hside : ∀ s : List Char, findTerms s = [] → parse_side s = [] := by
    intro s h
    simp [parse_side, h]
  have h1 : findTerms ['&', 'X', '^', '2', '#'] = [(false, [], ['2'])] := by decide
  have h2 : findTerms ['X', '^', '2'] = [(false, [], ['2'])] := by decide
  have hval : parse_side "&X^2#".toList = [(2, 1)] := by
    have hpn : parseNat ['2'] = 2 := by decide
    simp [parse_side, h1, termValue, hpn, getD, getCoef, setKey]
  refine ⟨hside, by decide, hside _ (by decide), hside _ (by decide), by decide, ?_, hval⟩
  rw [hval]
  have hpn : parseNat ['2'] = 2 := by decide
  simp [parse_side, h2, termValue, hpn, getD, getCoef, setKey]

theorem C9_unmatched_ignored_witness : parse_side "$".toList = [] :=
  C9_unmatched_ignored.1 "$".toList (by decide)

/-! ## Digit-string facts -/

theorem digitChar_isDigit : ∀ d : Nat, d < 10 → (Nat.digitChar d).isDigit = true := by decide

theorem natChars_ne_nil (n : Nat) : natChars n ≠ [] := by
  by_cases h : n < 10
  · rw [natChars_small h]; simp
  · rw [natChars_large h]; simp

theorem natChars_all_digits (n : Nat) : ∀ c ∈ natChars n, c.isDigit = true := by
  induction n using Nat.strong_induction_on with
  | _ n ih =>
    by_cases h : n < 10
    · rw [natChars_small h]
      intro c hc
      rw [List.mem_singleton.mp hc]
      exact digitChar_isDigit n h
    · rw [natChars_large h]
      intro c hc
      rcases List.mem_append.mp hc with hc | hc
      · exact ih _ (Nat.div_lt_self (by omega) (by norm_num)) c hc
      · rw [List.mem_singleton.mp hc]
        exact digitChar_isDigit _ (Nat.mod_lt _ (by norm_num))

theorem isDigit_ne_chars {c : Char} (h : c.isDigit = true) :
    c ≠ '.' ∧ c ≠ '+' ∧ c ≠ '-' ∧ c ≠ ' ' ∧ c ≠ '*' ∧ c ≠ '=' := by
  refine ⟨?_, ?_, ?_, ?_, ?_, ?_⟩ <;> (intro hh; subst hh; simp_all)

theorem dropWhile_append_of_all {p : Char → Bool} (l1 l2 : List Char)
    (h : ∀ c ∈ l1, p c = true) : (l1 ++ l2).dropWhile p = l2.dropWhile p := by
  induction l1 with
  | nil => rfl
  | cons c t ih =>
    simp only [List.cons_append, List.dropWhile_cons, h c (List.mem_cons_self _ _), if_true]
    exact ih (fun d hd => h d (List.mem_cons_of_mem _ hd))

theorem dropWhile_cons_of_neg {p : Char → Bool} {c : Char} (l : List Char)
    (h : p c = false) : (c :: l).dropWhile p = c :: l := by
  simp [List.dropWhile_cons, h]

theorem dropWhile_cons_of_pos {p : Char → Bool} {c : Char} (l : List Char)
    (h : p c = true) : (c :: l).dropWhile p = l.dropWhile p := by
  simp [List.dropWhile_cons, h]

/-- Stripping six zero fraction digits and then the bare dot leaves the
integer digits: the core of the `rstrip('0').rstrip('.')` pipeline. -/
theorem rstrip_zero_fraction (a : Nat) :
    rstripChar '.' (rstripChar '0' (natChars a ++ '.' :: padZeros 6 (natChars 0))) =
      natChars a := by
  have hz : padZeros 6 (natChars 0) = List.replicate 6 '0' := by decide
  obtain ⟨c, t, hct⟩ : ∃ c t, (natChars a).reverse = c :: t := by
    cases hr : (natChars a).reverse with
    | nil =>
      exact absurd (by simpa using congrArg List.reverse hr) (natChars_ne_nil a)
    | cons c t => exact ⟨c, t, rfl⟩
  have hcd : c.isDigit = true := by
    have : c ∈ (natChars a).reverse := by rw [hct]; exact List.mem_cons_self _ _
    exact natChars_all_digits a c (List.mem_reverse.mp this)
  have step1 : rstripChar '0' (natChars a ++ '.' :: padZeros 6 (natChars 0)) =
      natChars a ++ ['.'] := by
    rw [hz, rstripChar, List.reverse_append]
    have hrev : (('.' :: List.replicate 6 '0').reverse) =
        List.replicate 6 '0' ++ ['.'] := by simp
    rw [hrev, List.append_assoc]
    have hrep : ∀ d ∈ List.replicate 6 '0', ((d = '0' : Bool)) = true := by
      intro d hd
      rw [List.mem_replicate] at hd
      simp [hd.2]
    rw [dropWhile_append_of_all _ _ hrep]
    rw [show (['.'] ++ (natChars a).reverse) = '.' :: (natChars a).reverse from rfl]
    rw [dropWhile_cons_of_neg _ (by decide)]
    simp
  rw [step1, rstripChar, List.reverse_append, hct]
  rw [show ((['.'] : List Char).reverse ++ (c :: t)) = '.' :: c :: t from rfl]
  have hdot : (('.' :: c :: t).dropWhile (fun d => d = '.')) = c :: t := by
    rw [List.dropWhile_cons]
    simp only [decide_True, if_true]
    exact dropWhile_cons_of_neg _ (by simp [(isDigit_ne_chars hcd).1])
  rw [hdot, ← hct, List.reverse_reverse]

/-! ## format_number on small and fraction-free values -/

theorem rat_den_ne_one_of_small (num : ℚ) (h1 : num ≠ 0) (h2 : |num| < 1) :
    num.den ≠ 1 := by
  intro hd
  have hq : (num.num : ℚ) = num := by
    conv_rhs => rw [← Rat.num_div_den num]
    rw [hd]
    simp
  have hnz : num.num ≠ 0 := Rat.num_ne_zero.mpr h1
  have hone : (1 : ℤ) ≤ |num.num| := Int.one_le_abs hnz
  have : (1 : ℚ) ≤ |num| := by
    rw [← hq, ← Int.cast_abs]
    exact_mod_cast hone
  linarith

theorem format_number_pos_small (num : ℚ) (h1 : 0 < num) (h2 : num < 5 / 10 ^ 7) :
    format_number num = "0" := by
  have hden : num.den ≠ 1 :=
    rat_den_ne_one_of_small num (ne_of_gt h1) (by rw [abs_of_pos h1]; linarith)
  have hx1 : (0 : ℚ) < num * 10 ^ 6 := by positivity
  have hx2 : num * 10 ^ 6 < 1 / 2 := by nlinarith
  have hfl : Int.floor (num * 10 ^ 6) = 0 := by
    rw [Int.floor_eq_iff]
    constructor
    · push_cast; linarith
    · push_cast; linarith
  have hrhe : rhe (num * 10 ^ 6) = 0 := by
    unfold rhe
    rw [hfl]
    rw [if_pos (by push_cast; linarith)]
  simp only [format_number, if_neg hden]
  rw [hrhe]
  rw [if_neg (not_lt.mpr (le_of_lt h1))]
  rfl

theorem format_number_neg_small (num : ℚ) (h1 : -(5 / 10 ^ 7) < num) (h2 : num < 0) :
    format_number num = "-0" := by
  have hden : num.den ≠ 1 :=
    rat_den_ne_one_of_small num (ne_of_lt h2) (by rw [abs_of_neg h2]; linarith)
  have hx1 : -(1 / 2 : ℚ) < num * 10 ^ 6 := by nlinarith
  have hx2 : num * 10 ^ 6 < 0 := mul_neg_of_neg_of_pos h2 (by norm_num)
  have hfl : Int.floor (num * 10 ^ 6) = -1 := by
    rw [Int.floor_eq_iff]
    constructor
    · push_cast; linarith
    · push_cast; linarith
  have hrhe : rhe (num * 10 ^ 6) = 0 := by
    unfold rhe
    rw [hfl]
    rw [if_neg (by push_cast; linarith), if_pos (by push_cast; linarith)]
    norm_num
  simp only [format_number, if_neg hden]
  rw [hrhe]
  rw [if_pos h2]
  rfl

/-! ## C10: format_number collapses tiny values -/

/-- C10 (counterexample to the claim as stated): `-2⁻²⁷` is non-zero with
absolute value below `5·10⁻⁷`, yet `format_number` returns `"-0"`, not
`"0"` — the sign of the value is kept in front of the stripped zero. -/
theorem C10_counterexample :
    (-(1 / 2 ^ 27) : ℚ) ≠ 0 ∧ |(-(1 / 2 ^ 27) : ℚ)| < 5 / 10 ^ 7 ∧
    format_number (-(1 / 2 ^ 27) : ℚ) = "-0" ∧
    format_number (-(1 / 2 ^ 27) : ℚ) ≠ "0" := by
  have h := format_number_neg_small (-(1 / 2 ^ 27) : ℚ) (by norm_num) (by norm_num)
  refine ⟨by norm_num, by rw [abs_of_neg (by norm_num)]; norm_num, h, ?_⟩
  rw [h]
  decide

/-- C10 amended: when rounding a non-integral `num` to six fractional
digits yields only zero fraction digits, the stripping leaves a bare
integer string (sign plus integer digits, no dot); in particular a
positive `num` below `5·10⁻⁷` prints as `"0"`, while a negative one above
`-5·10⁻⁷` prints as `"-0"` (not `"0"` as the claim stated). -/
theorem C10_format_number_small (num : ℚ) :
    (0 < num → num < 5 / 10 ^ 7 → format_number num = "0") ∧
    (-(5 / 10 ^ 7) < num → num < 0 → format_number num = "-0") ∧
    (num.den ≠ 1 → (rhe (num * 10 ^ 6)).natAbs % 10 ^ 6 = 0 →
      format_number num =
        String.mk ((if num < 0 then ['-'] else []) ++
          natChars ((rhe (num * 10 ^ 6)).natAbs / 10 ^ 6))) := by
  refine ⟨format_number_pos_small num, format_number_neg_small num, ?_⟩
  intro hden hmod
  simp only [format_number, if_neg hden]
  rw [hmod, rstrip_zero_fraction]

theorem C10_format_number_small_witness :
    format_number ((1 / 2 ^ 27) : ℚ) = "0" :=
  (C10_format_number_small ((1 / 2 ^ 27) : ℚ)).1 (by norm_num) (by norm_num)

/-! ## Quadratic roots: real case -/

theorem quadRoot_sub (a b D : ℚ) (ha : (a : ℝ) ≠ 0) :
    quadRoot1 a b D - quadRoot2 a b D = Real.sqrt (D : ℝ) / (a : ℝ) := by
  unfold quadRoot1 quadRoot2
  field_simp
  ring

theorem quad_root_val (a b c : ℚ) (ha : (a : ℝ) ≠ 0) (s : ℝ)
    (hs2 : s ^ 2 = (b : ℝ) ^ 2 - 4 * a * c) :
    (a : ℝ) * ((-(b : ℝ) + s) / (2 * a)) ^ 2 + b * ((-(b : ℝ) + s) / (2 * a)) + c = 0 := by
  field_simp
  ring_nf
  nlinarith [hs2]

/-- C5 (counterexample to the claim as stated): for `1 - X^2 = 0` the code
has `a = -1`, `b = 0`, discriminant `4`, and prints `solution1 = -1`
before `solution2 = 1`: with a negative leading coefficient the root built
from `+√D` is the smaller one, so the larger root is reported second. -/
theorem C5_counterexample :
    solve_quadratic [(0, (1 : ℚ)), (2, -1)] = Solution.twoRealRoots (-1) 0 4 ∧
    quadRoot1 (-1) 0 4 = -1 ∧ quadRoot2 (-1) 0 4 = 1 ∧
    quadRoot1 (-1) 0 4 < quadRoot2 (-1) 0 4 := by
  have h4 : Real.sqrt ((4 : ℚ) : ℝ) = 2 := by
    rw [show ((4 : ℚ) : ℝ) = 2 ^ 2 by norm_num]
    exact Real.sqrt_sq (by norm_num)
  have h1 : quadRoot1 (-1) 0 4 = -1 := by
    unfold quadRoot1
    rw [h4]
    norm_num
  have h2 : quadRoot2 (-1) 0 4 = 1 := by
    unfold quadRoot2
    rw [h4]
    norm_num
  refine ⟨?_, h1, h2, by rw [h1, h2]; norm_num⟩
  norm_num [solve_quadratic, solve_linear, getD, getCoef]

/-- C5 amended: with a non-zero leading coefficient and a strictly
positive discriminant the solver reports the two distinct real roots
`(-b + √D)/(2a)` first and `(-b - √D)/(2a)` second, both of which solve
the equation; the first one is the larger root when `a > 0` and the
smaller one when `a < 0` (the claim said the larger always comes first). -/
theorem C5_two_real_roots (m : Coeffs) (ha : getD m 2 0 ≠ 0)
    (hD : 0 < getD m 1 0 ^ 2 - 4 * getD m 2 0 * getD m 0 0) :
    ∃ a b D : ℚ, a = getD m 2 0 ∧ b = getD m 1 0 ∧
      D = b ^ 2 - 4 * a * getD m 0 0 ∧
      solve_quadratic m = Solution.twoRealRoots a b D ∧
      quadRoot1 a b D ≠ quadRoot2 a b D ∧
      (0 < a → quadRoot2 a b D < quadRoot1 a b D) ∧
      (a < 0 → quadRoot1 a b D < quadRoot2 a b D) ∧
      (a : ℝ) * quadRoot1 a b D ^ 2 + (b : ℝ) * quadRoot1 a b D + (getD m 0 0 : ℝ) = 0 ∧
      (a : ℝ) * quadRoot2 a b D ^ 2 + (b : ℝ) * quadRoot2 a b D + (getD m 0 0 : ℝ) = 0 := by
  set a := getD m 2 0 with hadef
  set b := getD m 1 0 with hbdef
  set c := getD m 0 0 with hcdef
  have haR : (a : ℝ) ≠ 0 := by exact_mod_cast ha
  have hDR : (0 : ℝ) < ((b ^ 2 - 4 * a * c : ℚ) : ℝ) := by exact_mod_cast hD
  have hs : 0 < Real.sqrt ((b ^ 2 - 4 * a * c : ℚ) : ℝ) := Real.sqrt_pos.mpr hDR
  have hs2 : Real.sqrt ((b ^ 2 - 4 * a * c : ℚ) : ℝ) ^ 2 = ((b ^ 2 - 4 * a * c : ℚ) : ℝ) :=
    Real.sq_sqrt (le_of_lt hDR)
  have hs2' : Real.sqrt ((b ^ 2 - 4 * a * c : ℚ) : ℝ) ^ 2 = (b : ℝ) ^ 2 - 4 * a * c := by
    rw [hs2]; push_cast; ring
  have hsub := quadRoot_sub a b (b ^ 2 - 4 * a * c) haR
  refine ⟨a, b, b ^ 2 - 4 * a * c, rfl, rfl, rfl, ?_, ?_, ?_, ?_, ?_, ?_⟩
  · simp only [solve_quadratic]
    rw [if_neg ha, if_pos hD]
  · intro hcon
    have h0 : Real.sqrt ((b ^ 2 - 4 * a * c : ℚ) : ℝ) / (a : ℝ) = 0 := by
      rw [← hsub, hcon, sub_self]
    rcases div_eq_zero_iff.mp h0 with h | h
    · exact absurd h (ne_of_gt hs)
    · exact haR h
  · intro hpos
    rw [← sub_pos, hsub]
    exact div_pos hs (by exact_mod_cast hpos)
  · intro hneg
    rw [← sub_neg, hsub]
    exact div_neg_of_pos_of_neg hs (by exact_mod_cast hneg)
  · have hform : quadRoot1 a b (b ^ 2 - 4 * a * c) =
        (-(b : ℝ) + Real.sqrt ((b ^ 2 - 4 * a * c : ℚ) : ℝ)) / (2 * a) := rfl
    rw [hform]
    exact quad_root_val a b c haR _ hs2'
  · have hform : quadRoot2 a b (b ^ 2 - 4 * a * c) =
        (-(b : ℝ) + -Real.sqrt ((b ^ 2 - 4 * a * c : ℚ) : ℝ)) / (2 * a) := by
      unfold quadRoot2; ring
    rw [hform]
    refine quad_root_val a b c haR _ ?_
    rw [neg_pow, hs2']
    ring

theorem C5_two_real_roots_witness :
    ∃ a b D : ℚ, a = getD [(2, (1 : ℚ)), (0, -1)] 2 0 ∧ b = getD [(2, (1 : ℚ)), (0, -1)] 1 0 ∧
      D = b ^ 2 - 4 * a * getD [(2, (1 : ℚ)), (0, -1)] 0 0 ∧
      solve_quadratic [(2, (1 : ℚ)), (0, -1)] = Solution.twoRealRoots a b D ∧
      quadRoot1 a b D ≠ quadRoot2 a b D ∧
      (0 < a → quadRoot2 a b D < quadRoot1 a b D) ∧
      (a < 0 → quadRoot1 a b D < quadRoot2 a b D) ∧
      (a : ℝ) * quadRoot1 a b D ^ 2 + (b : ℝ) * quadRoot1 a b D +
        (getD [(2, (1 : ℚ)), (0, -1)] 0 0 : ℝ) = 0 ∧
      (a : ℝ) * quadRoot2 a b D ^ 2 + (b : ℝ) * quadRoot2 a b D +
        (getD [(2, (1 : ℚ)), (0, -1)] 0 0 : ℝ) = 0 :=
  C5_two_real_roots [(2, (1 : ℚ)), (0, -1)]
    (by norm_num [getD, getCoef]) (by norm_num [getD, getCoef])

/-! ## Quadratic roots: complex case -/

theorem quad_complex_root_val (a b c : ℚ) (ha : (a : ℂ) ≠ 0) (s : ℝ)
    (hs2 : s ^ 2 = 4 * (a : ℝ) * c - (b : ℝ) ^ 2) :
    (a : ℂ) * ((-(b : ℂ) + Complex.ofReal s * Complex.I) / (2 * a)) ^ 2 +
      (b : ℂ) * ((-(b : ℂ) + Complex.ofReal s * Complex.I) / (2 * a)) + (c : ℂ) = 0 := by
  have hs2C : (Complex.ofReal s) ^ 2 = 4 * (a : ℂ) * c - (b : ℂ) ^ 2 := by
    have := congrArg (fun x : ℝ => (x : ℂ)) hs2
    push_cast at this
    exact_mod_cast this
  have hI := Complex.I_sq
  field_simp
  linear_combination 2 * (a : ℂ) ^ 2 * Complex.I ^ 2 * hs2C +
    2 * (a : ℂ) ^ 2 * (4 * (a : ℂ) * c - (b : ℂ) ^ 2) * hI

theorem complexRoot1_eq (a b D : ℚ) :
    complexRoot1 a b D =
      (-(b : ℂ) + Complex.ofReal (Real.sqrt ((-D : ℚ) : ℝ)) * Complex.I) / (2 * (a : ℂ)) := by
  unfold complexRoot1 realPart imagPart
  push_cast
  rw [div_mul_eq_mul_div, div_add_div_same]

theorem complexRoot2_eq (a b D : ℚ) :
    complexRoot2 a b D =
      (-(b : ℂ) + Complex.ofReal (-Real.sqrt ((-D : ℚ) : ℝ)) * Complex.I) / (2 * (a : ℂ)) := by
  unfold complexRoot2 realPart imagPart
  push_cast
  rw [sub_eq_add_neg, ← neg_mul, ← neg_div, div_mul_eq_mul_div, div_add_div_same]

/-- C6: with a non-zero leading coefficient and a strictly negative
discriminant the solver reports the pair `real + imaginary·i` then
`real - imaginary·i`, where the real part is `-b/(2a)` and the imaginary
coordinate is `√(-D)/(2a)` exactly as the code computes them; the two
reported values are complex conjugates of each other and both are roots
of `a·X² + b·X + c`. -/
theorem C6_complex_roots (m : Coeffs) (ha : getD m 2 0 ≠ 0)
    (hD : getD m 1 0 ^ 2 - 4 * getD m 2 0 * getD m 0 0 < 0) :
    ∃ a b D : ℚ, a = getD m 2 0 ∧ b = getD m 1 0 ∧
      D = b ^ 2 - 4 * a * getD m 0 0 ∧
      solve_quadratic m = Solution.complexRoots a b D ∧
      (complexRoot1 a b D).re = ((realPart a b : ℚ) : ℝ) ∧
      (complexRoot1 a b D).im = imagPart a D ∧
      (complexRoot2 a b D).re = ((realPart a b : ℚ) : ℝ) ∧
      (complexRoot2 a b D).im = -imagPart a D ∧
      (starRingEnd ℂ) (complexRoot1 a b D) = complexRoot2 a b D ∧
      (a : ℂ) * complexRoot1 a b D ^ 2 + (b : ℂ) * complexRoot1 a b D + (getD m 0 0 : ℂ) = 0 ∧
      (a : ℂ) * complexRoot2 a b D ^ 2 + (b : ℂ) * complexRoot2 a b D + (getD m 0 0 : ℂ) = 0 := by
  set a := getD m 2 0 with hadef
  set b := getD m 1 0 with hbdef
  set c := getD m 0 0 with hcdef
  have haR : (a : ℝ) ≠ 0 := by exact_mod_cast ha
  have haC : (a : ℂ) ≠ 0 := by exact_mod_cast ha
  have hDnn : (0 : ℝ) ≤ ((-(b ^ 2 - 4 * a * c) : ℚ) : ℝ) := by
    have : (0 : ℚ) ≤ -(b ^ 2 - 4 * a * c) := by linarith
    exact_mod_cast this
  have hs2 : Real.sqrt ((-(b ^ 2 - 4 * a * c) : ℚ) : ℝ) ^ 2 =
      4 * (a : ℝ) * c - (b : ℝ) ^ 2 := by
    rw [Real.sq_sqrt hDnn]
    push_cast
    ring
  have hconj : (starRingEnd ℂ) (complexRoot1 a b (b ^ 2 - 4 * a * c)) =
      complexRoot2 a b (b ^ 2 - 4 * a * c) := by
    unfold complexRoot1 complexRoot2
    simp only [map_add, map_mul, map_ratCast, Complex.conj_ofReal, Complex.conj_I]
    ring
  have hroot1 : (a : ℂ) * complexRoot1 a b (b ^ 2 - 4 * a * c) ^ 2 +
      (b : ℂ) * complexRoot1 a b (b ^ 2 - 4 * a * c) + (c : ℂ) = 0 := by
    rw [complexRoot1_eq a b _]
    exact quad_complex_root_val a b c haC
      (Real.sqrt ((-(b ^ 2 - 4 * a * c) : ℚ) : ℝ)) hs2
  have hroot2 : (a : ℂ) * complexRoot2 a b (b ^ 2 - 4 * a * c) ^ 2 +
      (b : ℂ) * complexRoot2 a b (b ^ 2 - 4 * a * c) + (c : ℂ) = 0 := by
    rw [complexRoot2_eq a b _]
    refine quad_complex_root_val a b c haC
      (-(Real.sqrt ((-(b ^ 2 - 4 * a * c) : ℚ) : ℝ))) ?_
    rw [neg_pow, hs2]
    ring
  refine ⟨a, b, b ^ 2 - 4 * a * c, rfl, rfl, rfl, ?_, ?_, ?_, ?_, ?_, hconj, hroot1, hroot2⟩
  · simp only [solve_quadratic]
    rw [if_neg ha, if_neg (not_lt.mpr (le_of_lt hD)), if_neg (ne_of_lt hD)]
  · simp [complexRoot1, Complex.add_re, Complex.mul_re, Complex.ofReal_re, Complex.ofReal_im,
      Complex.I_re, Complex.I_im, Complex.ratCast_re, Complex.ratCast_im]
  · simp [complexRoot1, Complex.add_im, Complex.mul_im, Complex.ofReal_re, Complex.ofReal_im,
      Complex.I_re, Complex.I_im, Complex.ratCast_re, Complex.ratCast_im]
  · simp [complexRoot2, Complex.sub_re, Complex.mul_re, Complex.ofReal_re, Complex.ofReal_im,
      Complex.I_re, Complex.I_im, Complex.ratCast_re, Complex.ratCast_im]
  · simp [complexRoot2, Complex.sub_im, Complex.mul_im, Complex.ofReal_re, Complex.ofReal_im,
      Complex.I_re, Complex.I_im, Complex.ratCast_re, Complex.ratCast_im]

theorem C6_complex_roots_witness :
    ∃ a b D : ℚ, a = getD [(2, (1 : ℚ)), (0, 1)] 2 0 ∧ b = getD [(2, (1 : ℚ)), (0, 1)] 1 0 ∧
      D = b ^ 2 - 4 * a * getD [(2, (1 : ℚ)), (0, 1)] 0 0 ∧
      solve_quadratic [(2, (1 : ℚ)), (0, 1)] = Solution.complexRoots a b D ∧
      (complexRoot1 a b D).re = ((realPart a b : ℚ) : ℝ) ∧
      (complexRoot1 a b D).im = imagPart a D ∧
      (complexRoot2 a b D).re = ((realPart a b : ℚ) : ℝ) ∧
      (complexRoot2 a b D).im = -imagPart a D ∧
      (starRingEnd ℂ) (complexRoot1 a b D) = complexRoot2 a b D ∧
      (a : ℂ) * complexRoot1 a b D ^ 2 + (b : ℂ) * complexRoot1 a b D +
        (getD [(2, (1 : ℚ)), (0, 1)] 0 0 : ℂ) = 0 ∧
      (a : ℂ) * complexRoot2 a b D ^ 2 + (b : ℂ) * complexRoot2 a b D +
        (getD [(2, (1 : ℚ)), (0, 1)] 0 0 : ℂ) = 0 :=
  C6_complex_roots [(2, (1 : ℚ)), (0, 1)]
    (by norm_num [getD, getCoef]) (by norm_num [getD, getCoef])

/-! ## Characters of rendered magnitudes -/

theorem my_abs_nonneg (q : ℚ) : 0 ≤ my_abs q := by
  unfold my_abs
  by_cases h : q < 0
  · rw [if_pos h]; linarith
  · rw [if_neg h]; linarith

theorem natChars_cons (n : Nat) : ∃ d t, natChars n = d :: t ∧ d.isDigit = true := by
  cases h : natChars n with
  | nil => exact absurd h (natChars_ne_nil n)
  | cons d t =>
    refine ⟨d, t, rfl, natChars_all_digits n d ?_⟩
    rw [h]
    exact List.mem_cons_self _ _

theorem padZeros_good (k : Nat) (l : List Char) (h : ∀ ch ∈ l, ch.isDigit = true) :
    ∀ ch ∈ padZeros k l, ch.isDigit = true := by
  intro ch hm
  rcases List.mem_append.mp hm with hm | hm
  · rw [List.eq_of_mem_replicate hm]
    decide
  · exact h ch hm

theorem sciDigits_eq (n k : Nat) (d : Char) (rest : List Char) (h : natChars n = d :: rest) :
    sciDigits n k = (d :: (if rest = [] then [] else '.' :: rest)) ++
      'e' :: '-' :: padZeros 2 (natChars (k + 1 - (d :: rest).length)) := by
  unfold sciDigits
  rw [h]

theorem sciDigits_good (n k : Nat) :
    ∀ ch ∈ sciDigits n k, ch.isDigit = true ∨ ch = '.' ∨ ch = 'e' ∨ ch = '-' := by
  obtain ⟨d, rest, hnc, hd⟩ := natChars_cons n
  intro ch hc
  rw [sciDigits_eq n k d rest hnc] at hc
  rcases List.mem_append.mp hc with hc | hc
  · rcases List.mem_cons.mp hc with rfl | hc
    · exact Or.inl hd
    · by_cases hr : rest = []
      · rw [if_pos hr] at hc
        cases hc
      · rw [if_neg hr] at hc
        rcases List.mem_cons.mp hc with rfl | hc
        · exact Or.inr (Or.inl rfl)
        · have hmem : ch ∈ natChars n := by
            rw [hnc]
            exact List.mem_cons_of_mem _ hc
          exact Or.inl (natChars_all_digits n ch hmem)
  · rcases List.mem_cons.mp hc with rfl | hc
    · exact Or.inr (Or.inr (Or.inl rfl))
    rcases List.mem_cons.mp hc with rfl | hc
    · exact Or.inr (Or.inr (Or.inr rfl))
    · exact Or.inl (padZeros_good _ _ (natChars_all_digits _) ch hc)

theorem sciDigits_head (n k : Nat) : ∃ d t, sciDigits n k = d :: t ∧ d.isDigit = true := by
  obtain ⟨d, rest, hnc, hd⟩ := natChars_cons n
  refine ⟨d, (if rest = [] then [] else '.' :: rest) ++
    'e' :: '-' :: padZeros 2 (natChars (k + 1 - (d :: rest).length)), ?_, hd⟩
  rw [sciDigits_eq n k d rest hnc]
  rfl

theorem sciDigits_has_e (n k : Nat) : 'e' ∈ sciDigits n k := by
  obtain ⟨d, rest, hnc, _⟩ := natChars_cons n
  rw [sciDigits_eq n k d rest hnc]
  exact List.mem_append.mpr (Or.inr (List.mem_cons_self _ _))

theorem renderPos_good (q : ℚ) :
    ∀ ch ∈ renderPos q, ch.isDigit = true ∨ ch = '.' ∨ ch = 'e' ∨ ch = '-' := by
  unfold renderPos
  cases hm : minTenPow q.den with
  | some k =>
    by_cases hk : k = 0
    · simp only [hk, if_pos rfl]
      intro ch hc
      exact Or.inl (natChars_all_digits _ ch hc)
    · simp only [if_neg hk]
      by_cases hpos : 1 / 10 ^ 4 ≤ q
      · simp only [if_pos hpos]
        intro ch hc
        unfold posDigits at hc
        rcases List.mem_append.mp hc with hc | hc
        · exact Or.inl (natChars_all_digits _ ch hc)
        · rcases List.mem_cons.mp hc with rfl | hc
          · exact Or.inr (Or.inl rfl)
          · exact Or.inl (padZeros_good _ _ (natChars_all_digits _) ch hc)
      · simp only [if_neg hpos]
        intro ch hc
        exact sciDigits_good _ _ ch hc
  | none =>
    intro ch hc
    rcases List.mem_append.mp hc with hc | hc
    · exact Or.inl (natChars_all_digits _ ch hc)
    · rcases List.mem_cons.mp hc with rfl | hc
      · exact Or.inr (Or.inl rfl)
      · exact Or.inl (padZeros_good _ _ (natChars_all_digits _) ch hc)

theorem renderPos_head (q : ℚ) : ∃ d t, renderPos q = d :: t ∧ d.isDigit = true := by
  unfold renderPos
  cases hm : minTenPow q.den with
  | some k =>
    by_cases hk : k = 0
    · simp only [hk, if_pos rfl]
      exact natChars_cons _
    · simp only [if_neg hk]
      by_cases hpos : 1 / 10 ^ 4 ≤ q
      · simp only [if_pos hpos]
        obtain ⟨d, t, ht, hd⟩ := natChars_cons ((q * (10 : ℚ) ^ k).num.toNat / 10 ^ k)
        refine ⟨d, t ++ '.' :: padZeros k (natChars ((q * (10 : ℚ) ^ k).num.toNat % 10 ^ k)),
          ?_, hd⟩
        unfold posDigits
        rw [ht]
        rfl
      · simp only [if_neg hpos]
        exact sciDigits_head _ _
  | none =>
    obtain ⟨d, t, ht, hd⟩ := natChars_cons (q.num.toNat / q.den)
    exact ⟨d, t ++ '.' :: padZeros 17 (natChars (q.num.toNat % q.den * 10 ^ 17 / q.den)),
      by rw [ht]; rfl, hd⟩

theorem toList_format_coefficient_abs_good (c : ℚ) :
    ∀ ch ∈ (format_coefficient (my_abs c)).toList,
      ch.isDigit = true ∨ ch = '.' ∨ ch = 'e' ∨ ch = '-' := by
  unfold format_coefficient
  by_cases hden : (my_abs c).den = 1
  · rw [if_pos hden]
    intro ch hc
    have hnum : ¬ (my_abs c).num < 0 := not_lt.mpr (Rat.num_nonneg.mpr (my_abs_nonneg c))
    rw [show (String.mk (intChars (my_abs c).num)).toList = intChars (my_abs c).num from rfl]
      at hc
    unfold intChars at hc
    rw [if_neg hnum] at hc
    exact Or.inl (natChars_all_digits _ ch hc)
  · rw [if_neg hden, if_neg (not_lt.mpr (my_abs_nonneg c))]
    intro ch hc
    exact renderPos_good _ ch hc

theorem toList_format_coefficient_abs_head (c : ℚ) :
    ∃ d t, (format_coefficient (my_abs c)).toList = d :: t ∧ d.isDigit = true := by
  unfold format_coefficient
  by_cases hden : (my_abs c).den = 1
  · rw [if_pos hden]
    have hnum : ¬ (my_abs c).num < 0 := not_lt.mpr (Rat.num_nonneg.mpr (my_abs_nonneg c))
    show ∃ d t, intChars (my_abs c).num = d :: t ∧ d.isDigit = true
    unfold intChars
    rw [if_neg hnum]
    exact natChars_cons _
  · rw [if_neg hden, if_neg (not_lt.mpr (my_abs_nonneg c))]
    exact renderPos_head _

theorem specTermChars_no_plus (p : Nat) (c : ℚ) : ∀ ch ∈ specTermChars p c, ch ≠ '+' := by
  intro ch hc
  unfold specTermChars at hc
  rcases List.mem_append.mp hc with hc | hc
  · rcases toList_format_coefficient_abs_good c ch hc with hd | rfl | rfl | rfl
    · exact (isDigit_ne_chars hd).2.1
    · decide
    · decide
    · decide
  · rcases List.mem_cons.mp hc with rfl | hc
    · decide
    rcases List.mem_cons.mp hc with rfl | hc
    · decide
    rcases List.mem_cons.mp hc with rfl | hc
    · decide
    rcases List.mem_cons.mp hc with rfl | hc
    · decide
    rcases List.mem_cons.mp hc with rfl | hc
    · decide
    · exact (isDigit_ne_chars (natChars_all_digits p ch hc)).2.1

theorem specTermChars_shape (p : Nat) (c : ℚ) :
    ∃ d x t, specTermChars p c = d :: x :: t ∧ d.isDigit = true := by
  obtain ⟨d, t, ht, hd⟩ := toList_format_coefficient_abs_head c
  unfold specTermChars
  rw [ht]
  cases t with
  | nil => exact ⟨d, ' ', '*' :: ' ' :: 'X' :: '^' :: natChars p, rfl, hd⟩
  | cons x t2 => exact ⟨d, x, t2 ++ ' ' :: '*' :: ' ' :: 'X' :: '^' :: natChars p, rfl, hd⟩

theorem specTermChars_rev (p : Nat) (c : ℚ) :
    ∃ d u, (specTermChars p c).reverse = d :: u ∧ d.isDigit = true := by
  obtain ⟨e, u, hu, he⟩ : ∃ e u, (natChars p).reverse = e :: u ∧ e.isDigit = true := by
    cases hr : (natChars p).reverse with
    | nil => exact absurd (by simpa using congrArg List.reverse hr) (natChars_ne_nil p)
    | cons e u =>
      refine ⟨e, u, rfl, natChars_all_digits p e ?_⟩
      rw [← List.mem_reverse, hr]
      exact List.mem_cons_self _ _
  refine ⟨e, u ++ ['^', 'X', ' ', '*', ' '] ++ (format_coefficient (my_abs c)).toList.reverse,
    ?_, he⟩
  unfold specTermChars
  rw [List.reverse_append]
  have hX : (' ' :: '*' :: ' ' :: 'X' :: '^' :: natChars p).reverse =
      (natChars p).reverse ++ ['^', 'X', ' ', '*', ' '] := by
    simp
  rw [hX, hu]
  simp

/-! ## replacePM is the identity on rendered bodies -/

theorem replacePM_nil : replacePM [] = [] := rfl

theorem replacePM_short (s : List Char) (h : s.length < 3) : replacePM s = s := by
  match s, h with
  | [], _ => rfl
  | [a], _ => rfl
  | [a, b], _ => rfl

theorem replacePM_cons_of_ne (a b c : Char) (r : List Char)
    (h : ¬(a = '+' ∧ b = ' ' ∧ c = '-')) :
    replacePM (a :: b :: c :: r) = a :: replacePM (b :: c :: r) := by
  simp [replacePM, h]

theorem replacePM_append_noPlus :
    ∀ (a b : List Char), (∀ ch ∈ a, ch ≠ '+') → replacePM (a ++ b) = a ++ replacePM b := by
  intro a
  induction a with
  | nil => intro b _; rfl
  | cons x a2 ih =>
    intro b hch
    have hx : x ≠ '+' := hch x (List.mem_cons_self _ _)
    have hrest : ∀ ch ∈ a2, ch ≠ '+' := fun ch hc => hch ch (List.mem_cons_of_mem _ hc)
    cases hsh : a2 ++ b with
    | nil =>
      have ha2 : a2 = [] := by cases a2 <;> simp_all
      have hb : b = [] := by cases b <;> simp_all
      subst ha2; subst hb
      rfl
    | cons y t =>
      cases t with
      | nil =>
        have hlen : (x :: a2 ++ b).length < 3 := by
          simp only [List.cons_append, List.length_cons, hsh]
          simp
        rw [replacePM_short _ hlen]
        have hb : replacePM b = b := by
          refine replacePM_short b ?_
          have := congrArg List.length hsh
          simp only [List.length_append, List.length_cons, List.length_nil] at this
          omega
        rw [hb]
      | cons z w =>
        have hstep : replacePM (x :: a2 ++ b) = x :: replacePM (a2 ++ b) := by
          rw [show (x :: a2 ++ b) = x :: y :: z :: w by rw [List.cons_append, hsh]]
          rw [replacePM_cons_of_ne x y z w (by tauto), ← hsh]
        rw [hstep, ih b hrest]
        rfl

theorem replacePM_specRest : ∀ rest : List (Nat × ℚ),
    replacePM (specRenderRest rest) = specRenderRest rest := by
  intro rest
  induction rest with
  | nil => rfl
  | cons e r ih =>
    obtain ⟨p, c⟩ := e
    obtain ⟨d, x, t, ht, hd⟩ := specTermChars_shape p c
    show replacePM (' ' :: (if 0 < c then '+' else '-') :: ' ' :: specTermChars p c ++
      specRenderRest r) = _
    rw [ht]
    rw [show (' ' :: (if 0 < c then '+' else '-') :: ' ' :: (d :: x :: t) ++ specRenderRest r)
        = ' ' :: (if 0 < c then '+' else '-') :: ' ' :: d :: x :: (t ++ specRenderRest r)
      by simp]
    rw [replacePM_cons_of_ne _ _ _ _ (by simp)]
    rw [replacePM_cons_of_ne _ _ _ _ (by
      intro hcon
      exact (isDigit_ne_chars hd).2.2.1 hcon.2.2)]
    rw [replacePM_cons_of_ne _ _ _ _ (by simp)]
    rw [show (d :: x :: (t ++ specRenderRest r)) = (d :: x :: t) ++ specRenderRest r by simp]
    rw [← ht]
    rw [replacePM_append_noPlus _ _ (specTermChars_no_plus p c), ih]
    simp [specRenderRest, ht]

theorem replacePM_body (p : Nat) (c : ℚ) (rest : List (Nat × ℚ)) :
    replacePM (specTermChars p c ++ specRenderRest rest) =
      specTermChars p c ++ specRenderRest rest := by
  rw [replacePM_append_noPlus _ _ (specTermChars_no_plus p c), replacePM_specRest]

/-! ## Sorting lemmas -/

theorem insertSorted_perm (p : Nat) : ∀ l : List Nat, (insertSorted p l).Perm (p :: l) := by
  intro l
  induction l with
  | nil => exact List.Perm.refl _
  | cons q r ih =>
    unfold insertSorted
    by_cases h : p ≤ q
    · rw [if_pos h]
    · rw [if_neg h]
      exact (List.Perm.cons q ih).trans (List.Perm.swap p q r)

theorem sortKeys_perm (l : List Nat) : (sortKeys l).Perm l := by
  induction l with
  | nil => exact List.Perm.refl _
  | cons q r ih =>
    show (insertSorted q (sortKeys r)).Perm (q :: r)
    exact (insertSorted_perm q _).trans (List.Perm.cons q ih)

theorem mem_sortKeys (l : List Nat) (q : Nat) : q ∈ sortKeys l ↔ q ∈ l :=
  (sortKeys_perm l).mem_iff

theorem sortKeys_nodup (l : List Nat) (h : l.Nodup) : (sortKeys l).Nodup :=
  (sortKeys_perm l).nodup_iff.mpr h

theorem pairwise_insertSorted (p : Nat) :
    ∀ l : List Nat, l.Pairwise (· ≤ ·) → (insertSorted p l).Pairwise (· ≤ ·) := by
  intro l
  induction l with
  | nil => intro _; simp [insertSorted]
  | cons q r ih =>
    intro h
    obtain ⟨hq, hr⟩ := List.pairwise_cons.mp h
    unfold insertSorted
    by_cases hle : p ≤ q
    · rw [if_pos hle]
      refine List.pairwise_cons.mpr ⟨?_, h⟩
      intro x hx
      rcases List.mem_cons.mp hx with rfl | hx
      · exact hle
      · exact le_trans hle (hq x hx)
    · rw [if_neg hle]
      refine List.pairwise_cons.mpr ⟨?_, ih hr⟩
      intro x hx
      have hx2 : x ∈ p :: r := (insertSorted_perm p r).mem_iff.mp hx
      rcases List.mem_cons.mp hx2 with rfl | h1
      · exact le_of_lt (lt_of_not_le hle)
      · exact hq x h1

theorem sortKeys_pairwise_le (l : List Nat) : (sortKeys l).Pairwise (· ≤ ·) := by
  induction l with
  | nil => simp [sortKeys]
  | cons q r ih => exact pairwise_insertSorted q _ ih

theorem pairwise_lt_of_le_nodup (l : List Nat) (h1 : l.Pairwise (· ≤ ·)) (h2 : l.Nodup) :
    l.Pairwise (· < ·) :=
  (List.Pairwise.and h1 h2).imp (fun h => lt_of_le_of_ne h.1 h.2)

/-! ## Entry lookup lemmas -/

theorem getCoef_mem (m : Coeffs) (p : Nat) (c : ℚ) (h : getCoef m p = some c) : (p, c) ∈ m := by
  induction m with
  | nil => cases h
  | cons e r ih =>
    obtain ⟨k, w⟩ := e
    unfold getCoef at h
    by_cases hk : k = p
    · rw [if_pos hk] at h
      subst hk
      rw [Option.some_inj.mp h]
      exact List.mem_cons_self _ _
    · rw [if_neg hk] at h
      exact List.mem_cons_of_mem _ (ih h)

theorem getCoef_of_mem_nodup (m : Coeffs) (hnd : (keys m).Nodup) (p : Nat) (c : ℚ)
    (h : (p, c) ∈ m) : getCoef m p = some c := by
  induction m with
  | nil => cases h
  | cons e r ih =>
    obtain ⟨k, w⟩ := e
    simp only [keys, List.map_cons, List.nodup_cons] at hnd
    obtain ⟨hk, hr⟩ := hnd
    rcases List.mem_cons.mp h with heq | hmem
    · obtain ⟨h1, h2⟩ := Prod.mk.injEq .. ▸ heq
      subst h1; subst h2
      simp [getCoef]
    · have hkp : k ≠ p := by
        intro hcon
        subst hcon
        exact hk (List.mem_map.mpr ⟨(k, c), hmem, rfl⟩)
      simp only [getCoef, if_neg hkp]
      exact ih hr hmem

theorem allzero_getD (m : Coeffs) (h : ∀ e ∈ m, e.2 = 0) (p : Nat) : getD m p 0 = 0 := by
  cases hc : getCoef m p with
  | none => simp [getD, hc]
  | some v =>
    have := h (p, v) (getCoef_mem m p v hc)
    simp only at this
    simp [getD, hc, this]

/-! ## nonzeroSortedEntries facts -/

theorem mem_nonzeroSortedEntries (m : Coeffs) (hnd : (keys m).Nodup) (p : Nat) (c : ℚ) :
    (p, c) ∈ nonzeroSortedEntries m ↔ ((p, c) ∈ m ∧ c ≠ 0) := by
  unfold nonzeroSortedEntries
  rw [List.mem_filterMap]
  constructor
  · rintro ⟨q, hq, hsome⟩
    simp only at hsome
    by_cases hz : getD m q 0 = 0
    · rw [if_pos hz] at hsome
      cases hsome
    · rw [if_neg hz] at hsome
      simp only [Option.some.injEq, Prod.mk.injEq] at hsome
      obtain ⟨hqp, hval⟩ := hsome
      rw [hqp] at hz hval
      have hcoef : getCoef m p = some (getD m p 0) := by
        cases hcc : getCoef m p with
        | none => exact absurd (by simp [getD, hcc]) hz
        | some v => simp [getD, hcc]
      rw [← hval]
      exact ⟨getCoef_mem m p _ hcoef, hz⟩
  · rintro ⟨hmem, hc⟩
    have hval : getD m p 0 = c := by
      simp [getD, getCoef_of_mem_nodup m hnd p c hmem]
    refine ⟨p, (mem_sortKeys _ _).mpr (List.mem_map.mpr ⟨(p, c), hmem, rfl⟩), ?_⟩
    simp only
    rw [hval, if_neg hc]

theorem nonzeroSortedEntries_nonzero (m : Coeffs) :
    ∀ pc ∈ nonzeroSortedEntries m, pc.2 ≠ 0 := by
  intro pc hpc
  unfold nonzeroSortedEntries at hpc
  obtain ⟨q, _, hsome⟩ := List.mem_filterMap.mp hpc
  simp only at hsome
  by_cases hz : getD m q 0 = 0
  · rw [if_pos hz] at hsome
    cases hsome
  · rw [if_neg hz] at hsome
    have := Option.some_inj.mp hsome
    rw [← this]
    simpa using hz

theorem nonzeroSortedEntries_fst_sublist (m : Coeffs) :
    ((nonzeroSortedEntries m).map Prod.fst).Sublist (sortKeys (keys m)) := by
  unfold nonzeroSortedEntries
  generalize sortKeys (keys m) = l
  induction l with
  | nil => simp
  | cons q r ih =>
    simp only [List.filterMap_cons]
    by_cases hz : getD m q 0 = 0
    · simp only [hz, if_true]
      exact ih.cons q
    · simp only [hz, if_false, List.map_cons]
      exact ih.cons₂ q

theorem nonzeroSortedEntries_pairwise (m : Coeffs) (hnd : (keys m).Nodup) :
    ((nonzeroSortedEntries m).map Prod.fst).Pairwise (· < ·) := by
  have hsorted := pairwise_lt_of_le_nodup _ (sortKeys_pairwise_le (keys m))
    (sortKeys_nodup _ hnd)
  exact List.Pairwise.sublist (nonzeroSortedEntries_fst_sublist m) hsorted

/-! ## Pipeline assembly for reduced_form -/

theorem termChars_eq_spec (p : Nat) (c : ℚ) :
    termChars p c = (if 0 < c then '+' else '-') :: ' ' :: specTermChars p c := rfl

theorem specRenderRest_cons (p : Nat) (c : ℚ) (r : List (Nat × ℚ)) :
    specRenderRest ((p, c) :: r) =
      ' ' :: (if 0 < c then '+' else '-') :: ' ' :: (specTermChars p c ++ specRenderRest r) :=
  rfl

theorem joinSpace_map_eq : ∀ (rest : List (Nat × ℚ)) (e : Nat × ℚ),
    joinSpace ((e :: rest).map (fun pc => termChars pc.1 pc.2)) =
      termChars e.1 e.2 ++ specRenderRest rest := by
  intro rest
  induction rest with
  | nil =>
    intro e
    show joinSpace [termChars e.1 e.2] = _
    simp [joinSpace, specRenderRest]
  | cons e2 r ih =>
    intro e
    show termChars e.1 e.2 ++ ' ' :: joinSpace ((e2 :: r).map (fun pc => termChars pc.1 pc.2)) = _
    rw [ih e2]
    obtain ⟨p2, c2⟩ := e2
    rw [specRenderRest_cons, termChars_eq_spec p2 c2]
    simp

theorem isDigit_not_ws {c : Char} (h : c.isDigit = true) : isWS c = false := by
  unfold isWS
  have h1 : c ≠ ' ' := by intro hh; subst hh; simp_all
  have h2 : c ≠ '\t' := by intro hh; subst hh; simp_all
  have h3 : c ≠ '\n' := by intro hh; subst hh; simp_all
  have h4 : c ≠ '\r' := by intro hh; subst hh; simp_all
  simp [h1, h2, h3, h4]

theorem stripBoth_eq_self (l : List Char) (h1 : l.dropWhile isWS = l)
    (h2 : l.reverse.dropWhile isWS = l.reverse) : stripBoth l = l := by
  unfold stripBoth
  rw [h1, h2, List.reverse_reverse]

theorem body_rev : ∀ (rest : List (Nat × ℚ)) (p : Nat) (c : ℚ),
    ∃ d u, (specTermChars p c ++ specRenderRest rest).reverse = d :: u ∧ d.isDigit = true := by
  intro rest
  induction rest with
  | nil =>
    intro p c
    obtain ⟨d, u, hu, hd⟩ := specTermChars_rev p c
    exact ⟨d, u, by simpa [specRenderRest] using hu, hd⟩
  | cons e r ih =>
    intro p c
    obtain ⟨p2, c2⟩ := e
    obtain ⟨d, u, hu, hd⟩ := ih p2 c2
    refine ⟨d, u ++ [' ', (if 0 < c2 then '+' else '-'), ' '] ++ (specTermChars p c).reverse,
      ?_, hd⟩
    rw [specRenderRest_cons, List.reverse_append]
    have hX : (' ' :: (if 0 < c2 then '+' else '-') :: ' ' ::
        (specTermChars p2 c2 ++ specRenderRest r)).reverse =
        (specTermChars p2 c2 ++ specRenderRest r).reverse ++
          [' ', (if 0 < c2 then '+' else '-'), ' '] := by
      simp
    rw [hX, hu]
    simp

theorem pipeline_eq (p : Nat) (c : ℚ) (rest : List (Nat × ℚ)) :
    stripBoth ((replacePM (joinSpace
        (((p, c) :: rest).map (fun pc => termChars pc.1 pc.2)))).dropWhile
      (fun ch => ch = '+' || ch = ' ')) = specRender ((p, c) :: rest) := by
  obtain ⟨d, x, t, ht, hd⟩ := specTermChars_shape p c
  obtain ⟨hd1, hd2, hd3, hd4, hd5, hd6⟩ := isDigit_ne_chars hd
  have hJ : joinSpace (((p, c) :: rest).map (fun pc => termChars pc.1 pc.2)) =
      (if 0 < c then '+' else '-') :: ' ' ::
        (specTermChars p c ++ specRenderRest rest) := by
    rw [joinSpace_map_eq rest (p, c), termChars_eq_spec]
    simp
  have hR : replacePM ((if 0 < c then '+' else '-') :: ' ' ::
      (specTermChars p c ++ specRenderRest rest)) =
      (if 0 < c then '+' else '-') :: ' ' ::
        (specTermChars p c ++ specRenderRest rest) := by
    rw [ht]
    rw [show ((d :: x :: t) ++ specRenderRest rest) = d :: x :: (t ++ specRenderRest rest)
      by simp]
    rw [replacePM_cons_of_ne _ _ _ _ (by intro hcon; exact hd3 hcon.2.2)]
    rw [replacePM_cons_of_ne _ _ _ _ (by simp)]
    rw [show (d :: x :: (t ++ specRenderRest rest)) = (d :: x :: t) ++ specRenderRest rest
      by simp]
    rw [← ht, replacePM_body]
  rw [hJ, hR]
  have hdrop : (((if 0 < c then '+' else '-') :: ' ' ::
      (specTermChars p c ++ specRenderRest rest)).dropWhile
        (fun ch => ch = '+' || ch = ' ')) =
      (if 0 < c then ([] : List Char) else ['-', ' ']) ++
        (specTermChars p c ++ specRenderRest rest) := by
    have hdstop : ((specTermChars p c ++ specRenderRest rest).dropWhile
        (fun ch => ch = '+' || ch = ' ')) = specTermChars p c ++ specRenderRest rest := by
      rw [ht]
      rw [show ((d :: x :: t) ++ specRenderRest rest) = d :: (x :: t ++ specRenderRest rest)
        by simp]
      refine dropWhile_cons_of_neg _ ?_
      simp [hd2, hd4]
    by_cases hc : 0 < c
    · rw [if_pos hc, if_pos hc]
      rw [dropWhile_cons_of_pos _ (by decide), dropWhile_cons_of_pos _ (by decide), hdstop]
      simp
    · rw [if_neg hc, if_neg hc]
      rw [dropWhile_cons_of_neg _ (by decide)]
      simp
  rw [hdrop]
  obtain ⟨dr, ur, hur, hdr⟩ := body_rev rest p c
  obtain ⟨hr1, hr2, hr3, hr4, hr5, hr6⟩ := isDigit_ne_chars hdr
  have hspec : specRender ((p, c) :: rest) =
      (if 0 < c then ([] : List Char) else ['-', ' ']) ++
        (specTermChars p c ++ specRenderRest rest) := by
    unfold specRender
    by_cases hc : 0 < c <;> simp [hc]
  rw [hspec]
  by_cases hc : 0 < c
  · rw [if_pos hc]
    simp only [List.nil_append]
    refine stripBoth_eq_self _ ?_ ?_
    · rw [ht]
      rw [show ((d :: x :: t) ++ specRenderRest rest) = d :: (x :: t ++ specRenderRest rest)
        by simp]
      exact dropWhile_cons_of_neg _ (isDigit_not_ws hd)
    · rw [hur]
      exact dropWhile_cons_of_neg _ (isDigit_not_ws hdr)
  · rw [if_neg hc]
    refine stripBoth_eq_self _ ?_ ?_
    · rw [show ((['-', ' '] : List Char) ++ (specTermChars p c ++ specRenderRest rest)) =
        '-' :: (' ' :: (specTermChars p c ++ specRenderRest rest)) by simp]
      exact dropWhile_cons_of_neg _ (by decide)
    · rw [show ((['-', ' '] : List Char) ++
          (specTermChars p c ++ specRenderRest rest)).reverse =
        (specTermChars p c ++ specRenderRest rest).reverse ++ [' ', '-'] by simp]
      rw [hur]
      rw [show ((dr :: ur) ++ [' ', '-']) = dr :: (ur ++ [' ', '-']) by simp]
      exact dropWhile_cons_of_neg _ (isDigit_not_ws hdr)

theorem terms_map_eq (m : Coeffs) :
    ((sortKeys (keys m)).filterMap (fun p =>
      let c := getD m p 0
      if c = 0 then none else some (termChars p c))) =
    (nonzeroSortedEntries m).map (fun pc => termChars pc.1 pc.2) := by
  unfold nonzeroSortedEntries
  generalize sortKeys (keys m) = l
  induction l with
  | nil => rfl
  | cons q r ih =>
    simp only [List.filterMap_cons]
    by_cases hz : getD m q 0 = 0
    · simp only [hz, if_true]
      exact ih
    · simp only [hz, if_false, List.map_cons]
      rw [ih]

theorem reduced_form_eq_spec (m : Coeffs) : reduced_form m = specReducedForm m := by
  unfold reduced_form specReducedForm
  by_cases hz : m.all (fun e => decide (e.2 = 0)) = true
  · rw [if_pos hz, if_pos hz]
  · rw [if_neg hz, if_neg hz]
    simp only
    rw [terms_map_eq m]
    cases hL : nonzeroSortedEntries m with
    | nil => rfl
    | cons e L2 =>
      obtain ⟨p0, c0⟩ := e
      rw [show stripBoth ((replacePM (joinSpace
          (((p0, c0) :: L2).map (fun pc => termChars pc.1 pc.2)))).dropWhile
        (fun ch => ch = '+' || ch = ' ')) = specRender ((p0, c0) :: L2)
        from pipeline_eq p0 c0 L2]

/-! ## Zero form and bare-integer magnitudes -/

theorem specTermChars_length (p : Nat) (c : ℚ) : 7 ≤ (specTermChars p c).length := by
  obtain ⟨d, t, ht, _⟩ := toList_format_coefficient_abs_head c
  unfold specTermChars
  rw [ht]
  have hlen : 1 ≤ (natChars p).length := List.length_pos.mpr (natChars_ne_nil p)
  simp only [List.cons_append, List.length_cons, List.length_append]
  omega

theorem all_zero_bool_iff (m : Coeffs) :
    m.all (fun e => decide (e.2 = 0)) = true ↔ ∀ e ∈ m, e.2 = 0 := by
  rw [List.all_eq_true]
  constructor
  · intro h e he
    exact of_decide_eq_true (h e he)
  · intro h e he
    exact decide_eq_true (h e he)

theorem reduced_form_eq_zero_iff (m : Coeffs) :
    reduced_form m = "0 = 0" ↔ ∀ e ∈ m, e.2 = 0 := by
  constructor
  · intro heq
    by_contra hcon
    have hbool : ¬ (m.all (fun e => decide (e.2 = 0)) = true) := by
      rw [all_zero_bool_iff]
      exact hcon
    rw [reduced_form_eq_spec] at heq
    unfold specReducedForm at heq
    rw [if_neg hbool] at heq
    cases hL : nonzeroSortedEntries m with
    | nil =>
      rw [hL] at heq
      exact absurd heq (by decide)
    | cons e L2 =>
      obtain ⟨p0, c0⟩ := e
      rw [hL] at heq
      have hlist := congrArg String.toList heq
      have hlen := congrArg List.length hlist
      rw [show (String.mk (specRender ((p0, c0) :: L2) ++
          (' ' :: '=' :: ' ' :: '0' :: []))).toList =
        specRender ((p0, c0) :: L2) ++ (' ' :: '=' :: ' ' :: '0' :: []) from rfl] at hlen
      have h7 : 7 ≤ (specRender ((p0, c0) :: L2)).length := by
        unfold specRender
        have := specTermChars_length p0 c0
        simp only [List.length_append]
        omega
      simp only [List.length_append, List.length_cons] at hlen
      rw [show ("0 = 0").toList.length = 5 from rfl] at hlen
      omega
  · intro hall
    unfold reduced_form
    rw [if_pos ((all_zero_bool_iff m).mpr hall)]

theorem rat_int_iff (q : ℚ) : (∃ n : ℤ, q = (n : ℚ)) ↔ q.den = 1 := by
  constructor
  · rintro ⟨n, rfl⟩
    exact Rat.den_intCast n
  · intro h
    refine ⟨q.num, ?_⟩
    conv_lhs => rw [← Rat.num_div_den q]
    rw [h]
    simp

theorem my_abs_den (c : ℚ) : (my_abs c).den = c.den := by
  unfold my_abs
  split <;> simp

theorem renderPos_nondigit (q : ℚ) (h : q.den ≠ 1) :
    ∃ ch ∈ renderPos q, ch.isDigit = false := by
  cases hm : minTenPow q.den with
  | some k =>
    have hk : k ≠ 0 := by
      intro hk0
      subst hk0
      have hpred := List.find?_some hm
      simp only [decide_eq_true_eq] at hpred
      have : q.den ∣ 1 := Nat.dvd_of_mod_eq_zero (by simpa using hpred)
      exact h (Nat.dvd_one.mp this)
    by_cases hpos : 1 / 10 ^ 4 ≤ q
    · refine ⟨'.', ?_, by decide⟩
      simp only [renderPos, hm, if_neg hk, if_pos hpos]
      unfold posDigits
      simp
    · refine ⟨'e', ?_, by decide⟩
      simp only [renderPos, hm, if_neg hk, if_neg hpos]
      exact sciDigits_has_e _ _
  | none =>
    refine ⟨'.', ?_, by decide⟩
    simp only [renderPos, hm]
    simp

theorem format_coefficient_bare_iff (c : ℚ) :
    (∃ n : ℤ, c = (n : ℚ)) ↔
      ∀ ch ∈ (format_coefficient (my_abs c)).toList, ch.isDigit = true := by
  constructor
  · rintro ⟨n, rfl⟩
    have hden : (my_abs (n : ℚ)).den = 1 := by
      rw [my_abs_den]
      exact Rat.den_intCast n
    unfold format_coefficient
    rw [if_pos hden]
    intro ch hc
    have hnum : ¬ (my_abs (n : ℚ)).num < 0 :=
      not_lt.mpr (Rat.num_nonneg.mpr (my_abs_nonneg _))
    rw [show (String.mk (intChars (my_abs (n : ℚ)).num)).toList =
      intChars (my_abs (n : ℚ)).num from rfl] at hc
    unfold intChars at hc
    rw [if_neg hnum] at hc
    exact natChars_all_digits _ ch hc
  · intro hall
    by_contra hcon
    have hdc : c.den ≠ 1 := fun hd => hcon ((rat_int_iff c).mpr hd)
    have hden : (my_abs c).den ≠ 1 := by
      rw [my_abs_den]
      exact hdc
    have hnd2 : ∃ ch ∈ (format_coefficient (my_abs c)).toList, ch.isDigit = false := by
      unfold format_coefficient
      rw [if_neg hden, if_neg (not_lt.mpr (my_abs_nonneg c))]
      exact renderPos_nondigit _ hden
    obtain ⟨ch, hch, hchd⟩ := hnd2
    rw [hall ch hch] at hchd
    exact Bool.noConfusion hchd

/-! ## C4: reduced form rendering -/

/-- C4: the string pipeline of `reduced_form` (join with spaces, the
`"+ -"` replacement, the left strip of `+`/space, `strip`) produces
exactly the canonical rendering the specification describes: the non-zero
terms by strictly ascending power with zero powers omitted, every
magnitude printed (also magnitude 1), no redundant leading `+`, the
output `0 = 0` exactly for an empty or all-zero map, and a magnitude
printed as a bare digit string exactly when the coefficient is an
integer. -/
theorem C4_reduced_form_correct (m : Coeffs) (hnd : (keys m).Nodup) :
    reduced_form m = specReducedForm m ∧
    (reduced_form m = "0 = 0" ↔ ∀ e ∈ m, e.2 = 0) ∧
    ((nonzeroSortedEntries m).map Prod.fst).Pairwise (· < ·) ∧
    (∀ p c, (p, c) ∈ nonzeroSortedEntries m ↔ ((p, c) ∈ m ∧ c ≠ 0)) ∧
    (∀ c : ℚ, (∃ n : ℤ, c = (n : ℚ)) ↔
      ∀ ch ∈ (format_coefficient (my_abs c)).toList, ch.isDigit = true) :=
  ⟨reduced_form_eq_spec m, reduced_form_eq_zero_iff m,
    nonzeroSortedEntries_pairwise m hnd,
    fun p c => mem_nonzeroSortedEntries m hnd p c,
    format_coefficient_bare_iff⟩

theorem C4_reduced_form_correct_witness :
    reduced_form [(1, (2 : ℚ)), (0, -1)] = specReducedForm [(1, (2 : ℚ)), (0, -1)] ∧
    (reduced_form [(1, (2 : ℚ)), (0, -1)] = "0 = 0" ↔
      ∀ e ∈ [(1, (2 : ℚ)), (0, -1)], e.2 = 0) ∧
    ((nonzeroSortedEntries [(1, (2 : ℚ)), (0, -1)]).map Prod.fst).Pairwise (· < ·) ∧
    (∀ p c, (p, c) ∈ nonzeroSortedEntries [(1, (2 : ℚ)), (0, -1)] ↔
      ((p, c) ∈ [(1, (2 : ℚ)), (0, -1)] ∧ c ≠ 0)) ∧
    (∀ c : ℚ, (∃ n : ℤ, c = (n : ℚ)) ↔
      ∀ ch ∈ (format_coefficient (my_abs c)).toList, ch.isDigit = true) :=
  C4_reduced_form_correct [(1, (2 : ℚ)), (0, -1)] (by decide)

/-! ## Scanning the space-free rendering (towards the roundtrip claim) -/

theorem digitRun_append_digits (A t : List Char) (h : ∀ c ∈ A, c.isDigit = true) :
    digitRun (A ++ t) = A.length + digitRun t := by
  induction A with
  | nil => simp [digitRun]
  | cons c r ih =>
    have ih2 := ih (fun d hd => h d (List.mem_cons_of_mem _ hd))
    show (if c.isDigit then digitRun (r ++ t) + 1 else 0) = (c :: r).length + digitRun t
    rw [if_pos (h c (List.mem_cons_self _ _)), ih2, List.length_cons]
    omega

theorem digitRun_cons_nondigit {c : Char} (t : List Char) (h : c.isDigit = false) :
    digitRun (c :: t) = 0 := by
  simp [digitRun, h]

theorem matchXpow_flat (pow suffix : List Char) (hp : pow ≠ [])
    (hpd : ∀ c ∈ pow, c.isDigit = true) (hsuf : digitRun suffix = 0) :
    matchXpow ('X' :: '^' :: (pow ++ suffix)) = some (pow, pow.length + 2) := by
  have hc : digitRun (pow ++ suffix) = pow.length := by
    rw [digitRun_append_digits _ _ hpd, hsuf]
    omega
  have hne : pow.length ≠ 0 := fun h0 => hp (List.eq_nil_of_length_eq_zero h0)
  simp only [matchXpow, hc, if_neg hne, List.take_left]


theorem matchStarX_flat (pow suffix : List Char) (hp : pow ≠ [])
    (hpd : ∀ c ∈ pow, c.isDigit = true) (hsuf : digitRun suffix = 0) :
    matchStarX ('*' :: 'X' :: '^' :: (pow ++ suffix)) = some (pow, pow.length + 3) := by
  simp [matchStarX, matchXpow_flat pow suffix hp hpd hsuf]

theorem matchNumTail_int (A pow suffix : List Char) (hA : A ≠ [])
    (hAd : ∀ c ∈ A, c.isDigit = true) (hp : pow ≠ [])
    (hpd : ∀ c ∈ pow, c.isDigit = true) (hsuf : digitRun suffix = 0) :
    matchNumTail (A ++ '*' :: 'X' :: '^' :: (pow ++ suffix)) =
      some ((A, pow), A.length + pow.length + 3) := by
  have ha : digitRun (A ++ '*' :: 'X' :: '^' :: (pow ++ suffix)) = A.length := by
    rw [digitRun_append_digits _ _ hAd, digitRun_cons_nondigit _ (by decide)]
    omega
  have hdrop : (A ++ '*' :: 'X' :: '^' :: (pow ++ suffix)).drop A.length =
      '*' :: 'X' :: '^' :: (pow ++ suffix) := List.drop_left _ _
  have htake : (A ++ '*' :: 'X' :: '^' :: (pow ++ suffix)).take A.length = A :=
    List.take_left _ _
  have hlen : A.length ≠ 0 := fun h0 => hA (List.eq_nil_of_length_eq_zero h0)
  simp only [matchNumTail, ha, hdrop, htake]
  rw [if_neg (by simp), if_neg hlen, matchStarX_flat pow suffix hp hpd hsuf]
  simp only [Option.map_some']
  rw [← Nat.add_assoc]

theorem matchNumTail_dec (A B pow suffix : List Char) (_hA : A ≠ []) (hB : B ≠ [])
    (hAd : ∀ c ∈ A, c.isDigit = true) (hBd : ∀ c ∈ B, c.isDigit = true)
    (hp : pow ≠ []) (hpd : ∀ c ∈ pow, c.isDigit = true) (hsuf : digitRun suffix = 0) :
    matchNumTail (A ++ '.' :: (B ++ '*' :: 'X' :: '^' :: (pow ++ suffix))) =
      some ((A ++ '.' :: B, pow), (A ++ '.' :: B).length + pow.length + 3) := by
  have ha : digitRun (A ++ '.' :: (B ++ '*' :: 'X' :: '^' :: (pow ++ suffix))) =
      A.length := by
    rw [digitRun_append_digits _ _ hAd, digitRun_cons_nondigit _ (by decide)]
    omega
  have hd1 : (A ++ '.' :: (B ++ '*' :: 'X' :: '^' :: (pow ++ suffix))).drop A.length =
      '.' :: (B ++ '*' :: 'X' :: '^' :: (pow ++ suffix)) := List.drop_left _ _
  have hre : A ++ '.' :: (B ++ '*' :: 'X' :: '^' :: (pow ++ suffix)) =
      (A ++ ['.']) ++ (B ++ '*' :: 'X' :: '^' :: (pow ++ suffix)) := by simp
  have hd2 : (A ++ '.' :: (B ++ '*' :: 'X' :: '^' :: (pow ++ suffix))).drop
      (A.length + 1) = B ++ '*' :: 'X' :: '^' :: (pow ++ suffix) := by
    rw [hre, show A.length + 1 = (A ++ ['.']).length by simp, List.drop_left]
  have hb : digitRun (B ++ '*' :: 'X' :: '^' :: (pow ++ suffix)) = B.length := by
    rw [digitRun_append_digits _ _ hBd, digitRun_cons_nondigit _ (by decide)]
    omega
  have hblen : B.length ≠ 0 := fun h0 => hB (List.eq_nil_of_length_eq_zero h0)
  have hre2 : A ++ '.' :: (B ++ '*' :: 'X' :: '^' :: (pow ++ suffix)) =
      (A ++ '.' :: B) ++ '*' :: 'X' :: '^' :: (pow ++ suffix) := by simp
  have hlenAB : A.length + 1 + B.length = (A ++ '.' :: B).length := by
    simp only [List.length_append, List.length_cons]
    omega
  have hd3 : (A ++ '.' :: (B ++ '*' :: 'X' :: '^' :: (pow ++ suffix))).drop
      (A.length + 1 + B.length) = '*' :: 'X' :: '^' :: (pow ++ suffix) := by
    rw [hre2, hlenAB, List.drop_left]
  have ht3 : (A ++ '.' :: (B ++ '*' :: 'X' :: '^' :: (pow ++ suffix))).take
      (A.length + 1 + B.length) = A ++ '.' :: B := by
    rw [hre2, hlenAB, List.take_left]
  simp only [matchNumTail, ha, hd1, hd2, hd3, ht3, hb]
  rw [if_pos (by simp), if_neg hblen, if_neg (by simp),
    matchStarX_flat pow suffix hp hpd hsuf]
  simp only [Option.map_some']
  rw [show A.length + 1 + B.length + (pow.length + 3) =
    (A ++ '.' :: B).length + pow.length + 3 by
      simp only [List.length_append, List.length_cons]; omega]

theorem magChars_shape (c : ℚ) (hpos : c.den = 1 ∨ 1 / 10 ^ 4 ≤ my_abs c) :
    (magChars c ≠ [] ∧ ∀ ch ∈ magChars c, ch.isDigit = true) ∨
    (∃ A B, magChars c = A ++ '.' :: B ∧ A ≠ [] ∧ B ≠ [] ∧
      (∀ ch ∈ A, ch.isDigit = true) ∧ (∀ ch ∈ B, ch.isDigit = true)) := by
  have hpz : ∀ (k : Nat) (n : Nat), padZeros k (natChars n) ≠ [] := by
    intro k n h
    exact natChars_ne_nil n (List.append_eq_nil.mp h).2
  by_cases hden : (my_abs c).den = 1
  · have hnum : ¬ (my_abs c).num < 0 := not_lt.mpr (Rat.num_nonneg.mpr (my_abs_nonneg c))
    have h2 : magChars c = natChars (my_abs c).num.toNat := by
      show (format_coefficient (my_abs c)).toList = _
      unfold format_coefficient
      rw [if_pos hden]
      show intChars (my_abs c).num = _
      unfold intChars
      rw [if_neg hnum]
    rw [h2]
    exact Or.inl ⟨natChars_ne_nil _, natChars_all_digits _⟩
  · have hb : 1 / 10 ^ 4 ≤ my_abs c := by
      rcases hpos with h1 | h1
      · exact absurd (by rw [my_abs_den]; exact h1) hden
      · exact h1
    have h2 : magChars c = renderPos (my_abs c) := by
      show (format_coefficient (my_abs c)).toList = _
      unfold format_coefficient
      rw [if_neg hden, if_neg (not_lt.mpr (my_abs_nonneg c))]
      rfl
    rw [h2]
    unfold renderPos
    cases hm : minTenPow (my_abs c).den with
    | some k =>
      by_cases hk : k = 0
      · simp only [hk, if_pos rfl]
        exact Or.inl ⟨natChars_ne_nil _, natChars_all_digits _⟩
      · simp only [if_neg hk, if_pos hb]
        right
        refine ⟨natChars ((my_abs c * 10 ^ k).num.toNat / 10 ^ k),
          padZeros k (natChars ((my_abs c * 10 ^ k).num.toNat % 10 ^ k)), ?_,
          natChars_ne_nil _, hpz _ _, natChars_all_digits _,
          padZeros_good _ _ (natChars_all_digits _)⟩
        rfl
    | none =>
      right
      refine ⟨natChars ((my_abs c).num.toNat / (my_abs c).den),
        padZeros 17
          (natChars ((my_abs c).num.toNat % (my_abs c).den * 10 ^ 17 / (my_abs c).den)),
        ?_, natChars_ne_nil _, hpz _ _, natChars_all_digits _,
        padZeros_good _ _ (natChars_all_digits _)⟩
      rfl

theorem matchNumTail_flat (p : Nat) (c : ℚ) (suffix : List Char)
    (hsuf : digitRun suffix = 0) (hpos : c.den = 1 ∨ 1 / 10 ^ 4 ≤ my_abs c) :
    matchNumTail (flatTermChars p c ++ suffix) =
      some ((magChars c, natChars p), (flatTermChars p c).length) := by
  have hp := natChars_ne_nil p
  have hpd := natChars_all_digits p
  rcases magChars_shape c hpos with ⟨h1, h2⟩ | ⟨A, B, hAB, hA, hB, hAd, hBd⟩
  · have harr : flatTermChars p c ++ suffix =
        magChars c ++ '*' :: 'X' :: '^' :: (natChars p ++ suffix) := by
      simp [flatTermChars]
    rw [harr, matchNumTail_int (magChars c) (natChars p) suffix h1 h2 hp hpd hsuf,
      show (magChars c).length + (natChars p).length + 3 = (flatTermChars p c).length by
        simp only [flatTermChars, List.length_append, List.length_cons]; omega]
  · have harr : flatTermChars p c ++ suffix =
        A ++ '.' :: (B ++ '*' :: 'X' :: '^' :: (natChars p ++ suffix)) := by
      simp [flatTermChars, hAB]
    rw [harr, matchNumTail_dec A B (natChars p) suffix hA hB hAd hBd hp hpd hsuf,
      ← hAB,
      show (magChars c).length + (natChars p).length + 3 = (flatTermChars p c).length by
        simp only [flatTermChars, List.length_append, List.length_cons]; omega]

theorem findTerms_step_plus (p : Nat) (c : ℚ) (suffix : List Char)
    (hsuf : digitRun suffix = 0) (hpos : c.den = 1 ∨ 1 / 10 ^ 4 ≤ my_abs c) :
    findTerms ('+' :: flatTermChars p c ++ suffix) =
      (false, magChars c, natChars p) :: findTerms suffix := by
  have hmt : matchTermAt ('+' :: (flatTermChars p c ++ suffix)) =
      some ((false, magChars c, natChars p), (flatTermChars p c).length + 1) := by
    simp [matchTermAt, matchNumTail_flat p c suffix hsuf hpos]
  rw [show ('+' :: flatTermChars p c ++ suffix) = '+' :: (flatTermChars p c ++ suffix)
    from rfl, findTerms_cons, hmt]
  simp only [Nat.add_sub_cancel, List.drop_left]

theorem findTerms_step_minus (p : Nat) (c : ℚ) (suffix : List Char)
    (hsuf : digitRun suffix = 0) (hpos : c.den = 1 ∨ 1 / 10 ^ 4 ≤ my_abs c) :
    findTerms ('-' :: flatTermChars p c ++ suffix) =
      (true, magChars c, natChars p) :: findTerms suffix := by
  have hmt : matchTermAt ('-' :: (flatTermChars p c ++ suffix)) =
      some ((true, magChars c, natChars p), (flatTermChars p c).length + 1) := by
    simp [matchTermAt, matchNumTail_flat p c suffix hsuf hpos]
  rw [show ('-' :: flatTermChars p c ++ suffix) = '-' :: (flatTermChars p c ++ suffix)
    from rfl, findTerms_cons, hmt]
  simp only [Nat.add_sub_cancel, List.drop_left]

theorem findTerms_step_bare (p : Nat) (c : ℚ) (suffix : List Char)
    (hsuf : digitRun suffix = 0) (hpos : c.den = 1 ∨ 1 / 10 ^ 4 ≤ my_abs c) :
    findTerms (flatTermChars p c ++ suffix) =
      (false, magChars c, natChars p) :: findTerms suffix := by
  obtain ⟨d, t, hdt, hd⟩ := toList_format_coefficient_abs_head c
  have hmag : magChars c = d :: t := hdt
  have hne := isDigit_ne_chars hd
  have hflat : flatTermChars p c = d :: (t ++ '*' :: 'X' :: '^' :: natChars p) := by
    simp [flatTermChars, hmag]
  have hcons : flatTermChars p c ++ suffix =
      d :: ((t ++ '*' :: 'X' :: '^' :: natChars p) ++ suffix) := by
    rw [hflat]; simp
  have hmt : matchTermAt (d :: ((t ++ '*' :: 'X' :: '^' :: natChars p) ++ suffix)) =
      some ((false, magChars c, natChars p), (flatTermChars p c).length) := by
    simp only [matchTermAt, if_neg hne.2.1, if_neg hne.2.2.1]
    rw [← hcons, matchNumTail_flat p c suffix hsuf hpos]
    simp
  rw [hcons, findTerms_cons, hmt]
  have hlen : (flatTermChars p c).length - 1 =
      (t ++ '*' :: 'X' :: '^' :: natChars p).length := by
    rw [hflat]; simp
  simp only [hlen, List.drop_left]

theorem digitRun_flatRest : ∀ r : List (Nat × ℚ), digitRun (flatRest r) = 0
  | [] => rfl
  | (p, c) :: r => by
    show digitRun ((if 0 < c then '+' else '-') :: (flatTermChars p c ++ flatRest r)) = 0
    by_cases h : 0 < c
    · rw [if_pos h]; exact digitRun_cons_nondigit _ (by decide)
    · rw [if_neg h]; exact digitRun_cons_nondigit _ (by decide)

theorem findTerms_flatRest : ∀ L : List (Nat × ℚ),
    (∀ e ∈ L, e.2.den = 1 ∨ 1 / 10 ^ 4 ≤ my_abs e.2) →
    findTerms (flatRest L) =
      L.map (fun e => (decide (e.2 ≤ 0), magChars e.2, natChars e.1))
  | [], _ => rfl
  | (p, c) :: r, hall => by
    have hc := hall (p, c) (List.mem_cons_self _ _)
    have hr := fun e he => hall e (List.mem_cons_of_mem _ he)
    show findTerms ((if 0 < c then '+' else '-') :: (flatTermChars p c ++ flatRest r)) = _
    by_cases h : 0 < c
    · rw [if_pos h,
        show ('+' :: (flatTermChars p c ++ flatRest r)) =
          '+' :: flatTermChars p c ++ flatRest r from rfl,
        findTerms_step_plus p c _ (digitRun_flatRest r) hc, findTerms_flatRest r hr]
      simp [decide_eq_false (not_le.mpr h)]
    · rw [if_neg h,
        show ('-' :: (flatTermChars p c ++ flatRest r)) =
          '-' :: flatTermChars p c ++ flatRest r from rfl,
        findTerms_step_minus p c _ (digitRun_flatRest r) hc, findTerms_flatRest r hr]
      simp [decide_eq_true (not_lt.mp h)]

theorem findTerms_flatRender (L : List (Nat × ℚ))
    (hall : ∀ e ∈ L, e.2.den = 1 ∨ 1 / 10 ^ 4 ≤ my_abs e.2) :
    findTerms (flatRender L) =
      L.map (fun e => (decide (e.2 ≤ 0), magChars e.2, natChars e.1)) := by
  cases L with
  | nil => rfl
  | cons e r =>
    obtain ⟨p, c⟩ := e
    have hc := hall (p, c) (List.mem_cons_self _ _)
    have hr := fun e he => hall e (List.mem_cons_of_mem _ he)
    show findTerms ((if 0 < c then [] else ['-']) ++ flatTermChars p c ++ flatRest r) = _
    by_cases h : 0 < c
    · rw [if_pos h, List.nil_append,
        findTerms_step_bare p c _ (digitRun_flatRest r) hc, findTerms_flatRest r hr]
      simp [decide_eq_false (not_le.mpr h)]
    · rw [if_neg h,
        show (['-'] ++ flatTermChars p c ++ flatRest r) =
          '-' :: flatTermChars p c ++ flatRest r from rfl,
        findTerms_step_minus p c _ (digitRun_flatRest r) hc, findTerms_flatRest r hr]
      simp [decide_eq_true (not_lt.mp h)]

/-! ## Parsing back rendered numbers -/

theorem digitChar_sub48 (d : Nat) (h : d < 10) : (Nat.digitChar d).toNat - 48 = d := by
  interval_cases d <;> rfl

theorem parseNat_snoc (u : List Char) (ch : Char) :
    parseNat (u ++ [ch]) = parseNat u * 10 + (ch.toNat - 48) := by
  simp [parseNat, List.foldl_append]

theorem parseNat_natChars (n : Nat) : parseNat (natChars n) = n := by
  induction n using Nat.strong_induction_on with
  | _ n ih =>
    by_cases h : n < 10
    · rw [natChars_small h]
      show parseNat ([] ++ [Nat.digitChar n]) = n
      rw [parseNat_snoc, digitChar_sub48 n h]
      simp [parseNat]
    · rw [natChars_large h, parseNat_snoc, ih _ (Nat.div_lt_self (by omega) (by norm_num)),
        digitChar_sub48 _ (Nat.mod_lt _ (by norm_num))]
      omega

theorem parseNat_zeros (j : Nat) (l : List Char) :
    parseNat (List.replicate j '0' ++ l) = parseNat l := by
  induction j with
  | zero => rfl
  | succ j ih =>
    show parseNat (List.replicate j '0' ++ l) = parseNat l
    exact ih

theorem natChars_length_le : ∀ n k : Nat, 1 ≤ k → n < 10 ^ k → (natChars n).length ≤ k := by
  intro n
  induction n using Nat.strong_induction_on with
  | _ n ih =>
    intro k hk hn
    by_cases h : n < 10
    · rw [natChars_small h]
      simpa using hk
    · have hk2 : 2 ≤ k := by
        by_contra hc
        push_neg at hc
        have hk1 : k = 1 := by omega
        subst hk1
        simp at hn
        omega
      rw [natChars_large h]
      have hdiv : n / 10 < 10 ^ (k - 1) := by
        rw [Nat.div_lt_iff_lt_mul (by norm_num : 0 < 10)]
        calc n < 10 ^ k := hn
          _ = 10 ^ (k - 1) * 10 := by
            rw [← pow_succ]
            congr 1
            omega
      have hih := ih (n / 10) (Nat.div_lt_self (by omega) (by norm_num)) (k - 1)
        (by omega) hdiv
      simp only [List.length_append, List.length_cons, List.length_nil]
      omega

theorem dvd_ten_pow_self {d : Nat} (hd : d ≠ 0) {j : Nat} (h : d ∣ 10 ^ j) :
    d ∣ 10 ^ d := by
  have h10 : (10 : ℕ) ^ j ≠ 0 := by positivity
  have h10d : (10 : ℕ) ^ d ≠ 0 := by positivity
  rw [← Nat.factorization_le_iff_dvd hd h10d]
  have hle := (Nat.factorization_le_iff_dvd hd h10).mpr h
  rw [Finsupp.le_def] at hle ⊢
  intro p
  have hj := hle p
  rw [Nat.factorization_pow] at hj ⊢
  simp only [Finsupp.smul_apply, smul_eq_mul] at hj ⊢
  by_cases hp : (Nat.factorization 10) p = 0
  · rw [hp, Nat.mul_zero] at hj ⊢
    omega
  · have h2 : d.factorization p < d := Nat.factorization_lt p hd
    have h3 : 1 ≤ (Nat.factorization 10) p := by omega
    calc (Nat.factorization d) p ≤ d * 1 := by omega
      _ ≤ d * (Nat.factorization 10) p := Nat.mul_le_mul_left d h3

theorem minTenPow_dvd {den : Nat} (hden : den ≠ 0) {j : Nat} (h : den ∣ 10 ^ j) :
    ∃ k, minTenPow den = some k ∧ den ∣ 10 ^ k := by
  have hsd := dvd_ten_pow_self hden h
  cases hk : minTenPow den with
  | none =>
    exfalso
    have hmem : den ∈ List.range (den + 1) := by
      rw [List.mem_range]
      omega
    have hnone := List.find?_eq_none.mp hk den hmem
    exact hnone (by simp [Nat.mod_eq_zero_of_dvd hsd])
  | some k =>
    refine ⟨k, rfl, ?_⟩
    have h2 := List.find?_some hk
    exact Nat.dvd_of_mod_eq_zero (by simpa using h2)

/-- The denominator of `n / 10^k` divides `10^k` (immediate from `Rat.den_dvd`). -/
theorem den_dvd_rep (c : ℚ) (n : ℤ) (k : Nat) (h : c = (n : ℚ) / 10 ^ k) :
    c.den ∣ 10 ^ k := by
  have h2 : c = Rat.divInt n ((10 : ℤ) ^ k) := by
    rw [Rat.divInt_eq_div, h]
    push_cast
    ring
  have h3 := Rat.den_dvd n ((10 : ℤ) ^ k)
  rw [← h2] at h3
  have h4 : (c.den : ℤ) ∣ ((10 ^ k : ℕ) : ℤ) := by
    push_cast
    exact h3
  exact_mod_cast h4

theorem takeWhile_append_of_all {p : Char → Bool} (l1 l2 : List Char)
    (h : ∀ c ∈ l1, p c = true) : (l1 ++ l2).takeWhile p = l1 ++ l2.takeWhile p := by
  induction l1 with
  | nil => rfl
  | cons c t ih =>
    simp only [List.cons_append, List.takeWhile_cons, h c (List.mem_cons_self _ _), if_true]
    rw [ih (fun d hd => h d (List.mem_cons_of_mem _ hd))]

theorem takeWhile_cons_of_neg {p : Char → Bool} {c : Char} (l : List Char)
    (h : p c = false) : (c :: l).takeWhile p = [] := by
  simp [List.takeWhile_cons, h]

theorem parseDec_split (A B : List Char) (hA : ∀ c ∈ A, c.isDigit = true) :
    parseDec (A ++ '.' :: B) =
      (parseNat A : ℚ) + (parseNat B : ℚ) / (10 : ℚ) ^ B.length := by
  have hp : ∀ c ∈ A, (fun c => decide (c ≠ '.')) c = true := by
    intro c hc
    simpa using (isDigit_ne_chars (hA c hc)).1
  have ht : (A ++ '.' :: B).takeWhile (fun c => decide (c ≠ '.')) = A := by
    rw [takeWhile_append_of_all _ _ hp, takeWhile_cons_of_neg _ (by simp), List.append_nil]
  have hd : (A ++ '.' :: B).dropWhile (fun c => decide (c ≠ '.')) = '.' :: B := by
    rw [dropWhile_append_of_all _ _ hp, dropWhile_cons_of_neg _ (by simp)]
  simp only [parseDec, ht, hd]

theorem parseDec_natChars (n : Nat) : parseDec (natChars n) = (n : ℚ) := by
  have hall : ∀ c ∈ natChars n, (fun c => decide (c ≠ '.')) c = true := by
    intro c hc
    simpa using (isDigit_ne_chars (natChars_all_digits n c hc)).1
  have h1 : (natChars n).takeWhile (fun c => decide (c ≠ '.')) = natChars n :=
    List.takeWhile_eq_self_iff.mpr hall
  have h2 : (natChars n).dropWhile (fun c => decide (c ≠ '.')) = [] :=
    List.dropWhile_eq_nil_iff.mpr hall
  simp only [parseDec, h1, h2, parseNat_natChars]

theorem magChars_int (c : ℚ) (hden : (my_abs c).den = 1) :
    magChars c = natChars (my_abs c).num.toNat := by
  have hnum : ¬ (my_abs c).num < 0 := not_lt.mpr (Rat.num_nonneg.mpr (my_abs_nonneg c))
  show (format_coefficient (my_abs c)).toList = _
  unfold format_coefficient
  rw [if_pos hden]
  show intChars (my_abs c).num = _
  unfold intChars
  rw [if_neg hnum]

theorem magChars_frac (c : ℚ) (hden : (my_abs c).den ≠ 1) :
    magChars c = renderPos (my_abs c) := by
  show (format_coefficient (my_abs c)).toList = _
  unfold format_coefficient
  rw [if_neg hden, if_neg (not_lt.mpr (my_abs_nonneg c))]
  rfl

theorem parseDec_renderPos (q : ℚ) (hq : 0 ≤ q) {j : Nat} (hdvd : q.den ∣ 10 ^ j)
    (hpos : q.den = 1 ∨ 1 / 10 ^ 4 ≤ q) :
    parseDec (renderPos q) = q := by
  obtain ⟨k, hk, hkdvd⟩ := minTenPow_dvd q.den_nz hdvd
  unfold renderPos
  rw [hk]
  by_cases hk0 : k = 0
  · subst hk0
    have hden1 : q.den = 1 := Nat.dvd_one.mp (by simpa using hkdvd)
    simp only [if_pos rfl, parseDec_natChars]
    obtain ⟨z, hz⟩ := (rat_int_iff q).mpr hden1
    rw [hz]
    have hz0 : 0 ≤ z := by
      rw [hz] at hq
      exact_mod_cast hq
    have hcast : ((z.toNat : ℕ) : ℚ) = (z : ℚ) := by
      rw [show ((z.toNat : ℕ) : ℚ) = ((z.toNat : ℤ) : ℚ) by push_cast; ring,
        Int.toNat_of_nonneg hz0]
    simpa [Rat.intCast_num, parseDec_natChars] using hcast
  · have hb : 1 / 10 ^ 4 ≤ q := by
      rcases hpos with h1 | h1
      · exfalso
        have h0 : minTenPow q.den = some 0 := by rw [h1]; rfl
        rw [hk] at h0
        exact hk0 (Option.some_inj.mp h0)
      · exact h1
    simp only [if_neg hk0, if_pos hb]
    unfold posDigits
    obtain ⟨t, ht⟩ := hkdvd
    have hqden : ((q.den : ℚ)) ≠ 0 := Nat.cast_ne_zero.mpr q.den_nz
    have hnumq : (q.num : ℚ) = q * (q.den : ℚ) := by
      have h1 := Rat.num_div_den q
      rw [div_eq_iff hqden] at h1
      exact h1
    have h10 : ((10 : ℚ)) ^ k = ((q.den : ℚ)) * ((t : ℕ) : ℚ) := by
      have h2 := congrArg (fun x : ℕ => (x : ℚ)) ht
      push_cast at h2
      linear_combination h2
    have hint : q * (10 : ℚ) ^ k = ((q.num * (t : ℤ) : ℤ) : ℚ) := by
      push_cast
      rw [h10, hnumq]
      ring
    have hnum : (q * (10 : ℚ) ^ k).num = q.num * (t : ℤ) := by
      rw [hint, Rat.intCast_num]
    have hnn : 0 ≤ q.num * (t : ℤ) := mul_nonneg (Rat.num_nonneg.mpr hq) (by positivity)
    set n : Nat := (q * (10 : ℚ) ^ k).num.toNat with hn
    have hcast : ((n : ℕ) : ℚ) = q * (10 : ℚ) ^ k := by
      rw [hn, hnum,
        show (((q.num * (t : ℤ)).toNat : ℕ) : ℚ) = (((q.num * (t : ℤ)).toNat : ℤ) : ℚ) by
          push_cast; ring,
        Int.toNat_of_nonneg hnn, ← hint]
    have hpk : (0 : ℕ) < 10 ^ k := by positivity
    have hmod : n % 10 ^ k < 10 ^ k := Nat.mod_lt _ hpk
    have hlenB : (natChars (n % 10 ^ k)).length ≤ k :=
      natChars_length_le _ k (by omega) hmod
    have hfr : (padZeros k (natChars (n % 10 ^ k))).length = k := by
      simp only [padZeros, List.length_append, List.length_replicate]
      omega
    rw [parseDec_split (natChars (n / 10 ^ k)) (padZeros k (natChars (n % 10 ^ k)))
      (natChars_all_digits _), hfr,
      show padZeros k (natChars (n % 10 ^ k)) =
        List.replicate (k - (natChars (n % 10 ^ k)).length) '0' ++ natChars (n % 10 ^ k)
        from rfl,
      parseNat_zeros, parseNat_natChars, parseNat_natChars]
    have hNat := Nat.div_add_mod n (10 ^ k)
    have hQ : ((10 : ℚ)) ^ k * ((n / 10 ^ k : ℕ) : ℚ) + ((n % 10 ^ k : ℕ) : ℚ) =
        (n : ℚ) := by
      exact_mod_cast congrArg (fun x : ℕ => (x : ℚ)) hNat
    have hpkQ : ((10 : ℚ)) ^ k ≠ 0 := by positivity
    field_simp
    linear_combination hQ + hcast

theorem parseDec_magChars (c : ℚ) {j : Nat} (hdvd : c.den ∣ 10 ^ j)
    (hpos : c.den = 1 ∨ 1 / 10 ^ 4 ≤ my_abs c) :
    parseDec (magChars c) = my_abs c := by
  by_cases hden : (my_abs c).den = 1
  · rw [magChars_int c hden, parseDec_natChars]
    obtain ⟨z, hz⟩ := (rat_int_iff (my_abs c)).mpr hden
    rw [hz]
    have hz0 : 0 ≤ z := by
      have h1 := my_abs_nonneg c
      rw [hz] at h1
      exact_mod_cast h1
    have hcast : ((z.toNat : ℕ) : ℚ) = (z : ℚ) := by
      rw [show ((z.toNat : ℕ) : ℚ) = ((z.toNat : ℤ) : ℚ) by push_cast; ring,
        Int.toNat_of_nonneg hz0]
    simpa [Rat.intCast_num] using hcast
  · rw [magChars_frac c hden]
    refine @parseDec_renderPos (my_abs c) (my_abs_nonneg c) j
      (by rw [my_abs_den]; exact hdvd) ?_
    rcases hpos with h1 | h1
    · left
      rw [my_abs_den]
      exact h1
    · right
      exact h1

theorem magChars_ne_nil (c : ℚ) : magChars c ≠ [] := by
  obtain ⟨d, t, hdt, _⟩ := toList_format_coefficient_abs_head c
  rw [show magChars c = (format_coefficient (my_abs c)).toList from rfl, hdt]
  simp

theorem termValue_flat (p : Nat) (c : ℚ) (hc : c ≠ 0) {j : Nat} (hdvd : c.den ∣ 10 ^ j)
    (hpos : c.den = 1 ∨ 1 / 10 ^ 4 ≤ my_abs c) :
    termValue (decide (c ≤ 0), magChars c, natChars p) = (p, c) := by
  unfold termValue
  simp only [parseNat_natChars]
  rw [if_neg (magChars_ne_nil c), parseDec_magChars c hdvd hpos]
  by_cases h : c ≤ 0
  · have hlt : c < 0 := lt_of_le_of_ne h hc
    have habs : my_abs c = -c := by
      unfold my_abs
      rw [if_pos hlt]
    simp [decide_eq_true h, habs]
  · have habs : my_abs c = c := by
      unfold my_abs
      rw [if_neg (fun hlt => h (le_of_lt hlt))]
    simp [decide_eq_false h, habs]

/-! ## The space-stripped image of the rendered reduced form -/

theorem stripSpaces_append (a b : List Char) :
    stripSpaces (a ++ b) = stripSpaces a ++ stripSpaces b := by
  simp [stripSpaces]

theorem stripSpaces_eq_self (l : List Char) (h : ∀ c ∈ l, c ≠ ' ') :
    stripSpaces l = l :=
  List.filter_eq_self.mpr (fun c hc => by simpa using h c hc)

theorem stripSpaces_cons_space (l : List Char) : stripSpaces (' ' :: l) = stripSpaces l := by
  simp [stripSpaces]

theorem stripSpaces_cons_ne (c : Char) (l : List Char) (h : c ≠ ' ') :
    stripSpaces (c :: l) = c :: stripSpaces l := by
  simp [stripSpaces, h]

theorem stripSpaces_specTerm (p : Nat) (c : ℚ) :
    stripSpaces (specTermChars p c) = flatTermChars p c := by
  have hmag : stripSpaces (magChars c) = magChars c := by
    apply stripSpaces_eq_self
    intro ch hc
    rcases toList_format_coefficient_abs_good c ch hc with hd | rfl | rfl | rfl
    · exact (isDigit_ne_chars hd).2.2.2.1
    · decide
    · decide
    · decide
  have hnat : stripSpaces (natChars p) = natChars p := by
    apply stripSpaces_eq_self
    intro ch hc
    exact (isDigit_ne_chars (natChars_all_digits p ch hc)).2.2.2.1
  show stripSpaces (magChars c ++ ' ' :: '*' :: ' ' :: 'X' :: '^' :: natChars p) = _
  rw [stripSpaces_append, hmag, stripSpaces_cons_space,
    stripSpaces_cons_ne _ _ (by decide), stripSpaces_cons_space,
    stripSpaces_cons_ne _ _ (by decide), stripSpaces_cons_ne _ _ (by decide), hnat]
  rfl

theorem sign_ne_space (c : ℚ) : (if 0 < c then '+' else '-') ≠ ' ' := by
  by_cases h : 0 < c
  · rw [if_pos h]; decide
  · rw [if_neg h]; decide

theorem stripSpaces_specRest : ∀ r : List (Nat × ℚ),
    stripSpaces (specRenderRest r) = flatRest r
  | [] => rfl
  | (p, c) :: r => by
    show stripSpaces ((' ' :: (if 0 < c then '+' else '-') :: ' ' :: specTermChars p c) ++
        specRenderRest r) =
      ((if 0 < c then '+' else '-') :: flatTermChars p c) ++ flatRest r
    rw [stripSpaces_append, stripSpaces_cons_space, stripSpaces_cons_ne _ _ (sign_ne_space c),
      stripSpaces_cons_space, stripSpaces_specTerm, stripSpaces_specRest r]

theorem stripSpaces_specRender (L : List (Nat × ℚ)) :
    stripSpaces (specRender L) = flatRender L := by
  cases L with
  | nil => rfl
  | cons e r =>
    obtain ⟨p, c⟩ := e
    show stripSpaces (((if 0 < c then [] else ['-', ' ']) ++ specTermChars p c) ++
        specRenderRest r) =
      ((if 0 < c then [] else ['-']) ++ flatTermChars p c) ++ flatRest r
    rw [stripSpaces_append, stripSpaces_append, stripSpaces_specTerm, stripSpaces_specRest]
    by_cases h : 0 < c
    · rw [if_pos h, if_pos h]
      rfl
    · rw [if_neg h, if_neg h]
      rfl

/-! ## splitEq on the rendered equation -/

theorem splitEq_no_eq (v : List Char) (h : ∀ c ∈ v, c ≠ '=') : splitEq v = [v] := by
  induction v with
  | nil => rfl
  | cons c r ih =>
    have hc : ¬ (c = '=') := h c (List.mem_cons_self _ _)
    simp only [splitEq, if_neg hc]
    rw [ih (fun d hd => h d (List.mem_cons_of_mem _ hd))]

theorem splitEq_append_eq (u v : List Char) (hu : ∀ c ∈ u, c ≠ '=')
    (hv : ∀ c ∈ v, c ≠ '=') : splitEq (u ++ '=' :: v) = [u, v] := by
  induction u with
  | nil =>
    show splitEq ('=' :: v) = [[], v]
    rw [show splitEq ('=' :: v) = [] :: splitEq v from rfl, splitEq_no_eq v hv]
  | cons c r ih =>
    have hc : ¬ (c = '=') := hu c (List.mem_cons_self _ _)
    show splitEq (c :: (r ++ '=' :: v)) = [c :: r, v]
    simp only [splitEq, if_neg hc]
    rw [ih (fun d hd => hu d (List.mem_cons_of_mem _ hd))]

theorem flatTermChars_ne_eq (p : Nat) (c : ℚ) : ∀ ch ∈ flatTermChars p c, ch ≠ '=' := by
  intro ch hc
  unfold flatTermChars at hc
  rcases List.mem_append.mp hc with hc | hc
  · rcases toList_format_coefficient_abs_good c ch hc with hd | rfl | rfl | rfl
    · exact (isDigit_ne_chars hd).2.2.2.2.2
    · decide
    · decide
    · decide
  · rcases List.mem_cons.mp hc with rfl | hc
    · decide
    rcases List.mem_cons.mp hc with rfl | hc
    · decide
    rcases List.mem_cons.mp hc with rfl | hc
    · decide
    · exact (isDigit_ne_chars (natChars_all_digits p ch hc)).2.2.2.2.2

theorem sign_ne_eq (c : ℚ) : (if 0 < c then '+' else '-') ≠ '=' := by
  by_cases h : 0 < c
  · rw [if_pos h]; decide
  · rw [if_neg h]; decide

theorem flatRest_ne_eq : ∀ r : List (Nat × ℚ), ∀ ch ∈ flatRest r, ch ≠ '='
  | [] => by intro ch hc; cases hc
  | (p, c) :: r => by
    intro ch hc
    rcases List.mem_cons.mp hc with rfl | hc2
    · exact sign_ne_eq c
    · rcases List.mem_append.mp hc2 with h3 | h3
      · exact flatTermChars_ne_eq p c ch h3
      · exact flatRest_ne_eq r ch h3

theorem flatRender_ne_eq (L : List (Nat × ℚ)) : ∀ ch ∈ flatRender L, ch ≠ '=' := by
  cases L with
  | nil => intro ch hc; cases hc
  | cons e r =>
    obtain ⟨p, c⟩ := e
    intro ch hc
    rcases List.mem_append.mp hc with h2 | h2
    · rcases List.mem_append.mp h2 with h3 | h3
      · by_cases h : 0 < c
        · rw [if_pos h] at h3
          cases h3
        · rw [if_neg h] at h3
          rcases List.mem_singleton.mp h3 with rfl
          decide
      · exact flatTermChars_ne_eq p c ch h3
    · exact flatRest_ne_eq r ch h2

/-! ## sumPow on entry lists with distinct powers -/

theorem sumPow_eq_zero (E : List (Nat × ℚ)) (p : Nat) (h : p ∉ E.map Prod.fst) :
    sumPow p E = 0 := by
  unfold sumPow
  have hfil : E.filter (fun e => decide (e.1 = p)) = [] := by
    rw [List.filter_eq_nil_iff]
    intro e he hpe
    rw [decide_eq_true_eq] at hpe
    exact h (List.mem_map.mpr ⟨e, he, hpe⟩)
  rw [hfil]
  rfl

theorem sumPow_eq_of_mem (E : List (Nat × ℚ)) (hnd : (E.map Prod.fst).Nodup) (p : Nat)
    (c : ℚ) (hmem : (p, c) ∈ E) : sumPow p E = c := by
  induction E with
  | nil => cases hmem
  | cons e r ih =>
    simp only [List.map_cons, List.nodup_cons] at hnd
    obtain ⟨hh, hr⟩ := hnd
    rcases List.mem_cons.mp hmem with heq | hmem2
    · subst heq
      show sumPow p ((p, c) :: r) = c
      have hfil : ((p, c) :: r).filter (fun e => decide (e.1 = p)) =
          (p, c) :: r.filter (fun e => decide (e.1 = p)) := by
        simp [List.filter_cons]
      unfold sumPow
      rw [hfil]
      have hz : ((r.filter (fun e => decide (e.1 = p))).map Prod.snd).sum = 0 :=
        sumPow_eq_zero r p (by simpa using hh)
      simp only [List.map_cons, List.sum_cons]
      rw [hz, add_zero]
    · have hne : ¬ (e.1 = p) := by
        intro hcon
        exact absurd (List.mem_map.mpr ⟨(p, c), hmem2, rfl⟩) (hcon ▸ hh)
      have hfil : (e :: r).filter (fun x => decide (x.1 = p)) =
          r.filter (fun x => decide (x.1 = p)) := by
        simp [List.filter_cons, hne]
      show sumPow p (e :: r) = c
      unfold sumPow
      rw [hfil]
      exact ih hr hmem2

/-! ## The re-parsed term list of the rendering -/

theorem termsOf_flatRender (L : List (Nat × ℚ)) (hnz : ∀ e ∈ L, e.2 ≠ 0)
    (hrep : ∀ e ∈ L, ∃ n : ℤ, ∃ k : ℕ, e.2 = (n : ℚ) / 10 ^ k)
    (hpos : ∀ e ∈ L, e.2.den = 1 ∨ 1 / 10 ^ 4 ≤ my_abs e.2) :
    termsOf (flatRender L) = L := by
  unfold termsOf
  rw [findTerms_flatRender L hpos, List.map_map]
  have hid : ∀ e ∈ L,
      (termValue ∘ fun e => (decide (e.2 ≤ 0), magChars e.2, natChars e.1)) e = id e := by
    intro e he
    obtain ⟨n, k, hnk⟩ := hrep e he
    have hdvd := den_dvd_rep e.2 n k hnk
    show termValue (decide (e.2 ≤ 0), magChars e.2, natChars e.1) = e
    rw [termValue_flat e.1 e.2 (hnz e he) hdvd (hpos e he)]
  rw [List.map_congr_left hid, List.map_id]

/-! ## C8: render/re-parse roundtrip -/

/-- C8 counterexample: the map `[(1, 0)]` renders as `"0 = 0"`, which
re-parses to the empty map, so re-parsing the rendered reduced form does
not return the original map — the zero-coefficient entry at power 1 is
dropped. -/
theorem C8_counterexample :
    parse_polynomial (reduced_form [(1, (0 : ℚ))]) = some [] ∧
      ([] : Coeffs) ≠ [(1, (0 : ℚ))] := by
  have h1 : reduced_form [(1, (0 : ℚ))] = "0 = 0" := by
    rw [reduced_form_eq_zero_iff]
    intro e he
    rw [List.mem_singleton.mp he]
  refine ⟨?_, by simp⟩
  rw [h1]
  rfl

/-- C8 (amended): for a map with pairwise-distinct powers whose coefficients
are all exactly representable as `n / 10^k` (so the decimal rendering is
exact) and whose non-integral coefficients have magnitude at least
`1/10^4` (so `str` renders them positionally rather than in scientific
notation), re-parsing the rendered reduced form yields a map with the same
value at every power, absent powers reading as 0; entries with zero
coefficient are dropped by the rendering, so the maps agree as functions
but not necessarily as key sets. -/
theorem C8_reparse_reduced_form (m : Coeffs) (hnd : (keys m).Nodup)
    (hrep : ∀ e ∈ m, ∃ n : ℤ, ∃ k : ℕ, e.2 = (n : ℚ) / 10 ^ k)
    (hpos : ∀ e ∈ m, e.2.den = 1 ∨ 1 / 10 ^ 4 ≤ my_abs e.2) :
    ∃ m2, parse_polynomial (reduced_form m) = some m2 ∧
      ∀ p, getD m2 p 0 = getD m p 0 := by
  rw [reduced_form_eq_spec]
  by_cases hz : m.all (fun e => decide (e.2 = 0)) = true
  · unfold specReducedForm
    rw [if_pos hz]
    refine ⟨[], rfl, ?_⟩
    intro p
    rw [allzero_getD m ((all_zero_bool_iff m).mp hz) p]
    rfl
  · unfold specReducedForm
    rw [if_neg hz]
    have htl : (String.mk (specRender (nonzeroSortedEntries m) ++
        (' ' :: '=' :: ' ' :: '0' :: []))).toList =
        specRender (nonzeroSortedEntries m) ++ (' ' :: '=' :: ' ' :: '0' :: []) := rfl
    have hstrip : stripSpaces (specRender (nonzeroSortedEntries m) ++
        (' ' :: '=' :: ' ' :: '0' :: [])) =
        flatRender (nonzeroSortedEntries m) ++ '=' :: ('0' :: []) := by
      rw [stripSpaces_append, stripSpaces_specRender]
      rfl
    have hsplit : splitEq (flatRender (nonzeroSortedEntries m) ++ '=' :: ('0' :: [])) =
        [flatRender (nonzeroSortedEntries m), ['0']] :=
      splitEq_append_eq _ _ (flatRender_ne_eq _)
        (fun c hc => by rw [List.mem_singleton.mp hc]; decide)
    unfold parse_polynomial
    rw [htl, hstrip, hsplit]
    refine ⟨parse_side (flatRender (nonzeroSortedEntries m)), rfl, ?_⟩
    intro p
    rw [parse_side_getD]
    have hnz := nonzeroSortedEntries_nonzero m
    have hrep2 : ∀ e ∈ nonzeroSortedEntries m,
        ∃ n : ℤ, ∃ k : ℕ, e.2 = (n : ℚ) / 10 ^ k := by
      intro e he
      obtain ⟨hm, _⟩ := (mem_nonzeroSortedEntries m hnd e.1 e.2).mp
        (Prod.mk.eta.symm ▸ he)
      have hm2 : e ∈ m := by
        rw [← @Prod.mk.eta _ _ e]
        exact hm
      exact hrep e hm2
    have hpos2 : ∀ e ∈ nonzeroSortedEntries m,
        e.2.den = 1 ∨ 1 / 10 ^ 4 ≤ my_abs e.2 := by
      intro e he
      obtain ⟨hm, _⟩ := (mem_nonzeroSortedEntries m hnd e.1 e.2).mp
        (Prod.mk.eta.symm ▸ he)
      have hm2 : e ∈ m := by
        rw [← @Prod.mk.eta _ _ e]
        exact hm
      exact hpos e hm2
    rw [termsOf_flatRender _ hnz hrep2 hpos2]
    have hndL : ((nonzeroSortedEntries m).map Prod.fst).Nodup :=
      List.Pairwise.imp (fun hlt => ne_of_lt hlt) (nonzeroSortedEntries_pairwise m hnd)
    by_cases hex : ∃ c, (p, c) ∈ nonzeroSortedEntries m
    · obtain ⟨c, hc⟩ := hex
      rw [sumPow_eq_of_mem _ hndL p c hc]
      obtain ⟨hm, _⟩ := (mem_nonzeroSortedEntries m hnd p c).mp hc
      rw [getD, getCoef_of_mem_nodup m hnd p c hm]
      rfl
    · push_neg at hex
      have hpn : p ∉ (nonzeroSortedEntries m).map Prod.fst := by
        intro hmp
        obtain ⟨e, he, hfe⟩ := List.mem_map.mp hmp
        exact hex e.2 (by rw [← hfe, Prod.mk.eta]; exact he)
      rw [sumPow_eq_zero _ p hpn]
      cases hcc : getCoef m p with
      | none => simp [getD, hcc]
      | some v =>
        by_cases hv : v = 0
        · simp [getD, hcc, hv]
        · exact absurd ((mem_nonzeroSortedEntries m hnd p v).mpr
            ⟨getCoef_mem m p v hcc, hv⟩) (fun hin => hex v hin)

/-- Closed witness for the amended roundtrip: the concrete map `[(1, 1)]`
(the equation `1 * X^1 = 0`) satisfies both hypotheses and re-parses to a
map with the same value at every power. -/
theorem C8_reparse_reduced_form_witness :
    ∃ m2, parse_polynomial (reduced_form [(1, (1 : ℚ))]) = some m2 ∧
      ∀ p, getD m2 p 0 = getD [(1, (1 : ℚ))] p 0 :=
  C8_reparse_reduced_form [(1, (1 : ℚ))] (by decide)
    (fun e he => ⟨1, 0, by rw [List.mem_singleton.mp he]; norm_num⟩)
    (fun e he => Or.inl (by rw [List.mem_singleton.mp he]; decide))

end ComputorV1
